import Mathlib

/-!
Verification of the stream_mapper core spec against a shallow embedding of
the repository's Python sources.

Arrays are embedded as `List (List ℚ)` (a list of rows); machine floats are
embedded as exact rationals extended with the two infinities (`PyFloat`),
since every claim under study is about structural/exact behaviour, not about
rounding.  Fallible Python code (constructors that `raise`, lookups that can
fail) is embedded in `Except PyErr`.
-/

namespace StreamML

/-- Python error kinds relevant to the claims: `KeyError` vs `IndexError` vs
`TypeError` vs `ValueError` are distinguished because the spec distinguishes
"not present" from "malformed request" failures. -/
inductive PyErr where
  | keyError : PyErr
  | indexError : PyErr
  | typeError : PyErr
  | valueError : PyErr
deriving DecidableEq, Repr

/-- Embedding of a Python float for bound values: exact rationals plus the
two infinities (`math.inf`).  NaN never arises in the verified paths. -/
inductive PyFloat where
  | ninf : PyFloat
  | pinf : PyFloat
  | fin : ℚ → PyFloat
deriving DecidableEq, Repr

/-- A matrix (2-D array) as a list of rows. -/
abbrev Mat := List (List ℚ)

/-- Horizontal stack (`xp.hstack`) of matrices of equal row count: rows are
concatenated pairwise.  On an empty list of operands the jax/numpy call
raises; the theorems about `hstack` therefore always assume a nonempty
operand list. -/
def hstack : List Mat → Mat
  | [] => []
  | m :: ms => ms.foldl (fun a b => List.zipWith (· ++ ·) a b) m

/-- Reshape a vector into a one-column matrix (the `[:, None]` idiom). -/
def colify (v : List ℚ) : Mat := v.map (fun x => [x])

/-- `m` is an `r`-row, one-column matrix. -/
def IsCol (r : ℕ) (m : Mat) : Prop :=
  m.length = r ∧ ∀ row ∈ m, row.length = 1

instance (r : ℕ) (m : Mat) : Decidable (IsCol r m) := by
  unfold IsCol; infer_instance

/-- Truth of an `Except` computation succeeding. -/
def exIsOk {ε α : Type} : Except ε α → Bool
  | Except.ok _ => true
  | Except.error _ => false

/-! ### Association lists with Python-dict semantics

`FrozenDict` and the working dictionaries of the sources are Python dicts:
iteration order is insertion order, and assigning to an existing key updates
the value in place (keeping the key's original position). -/

/-- Python-dict assignment `m[k] = v`: replace in place if `k` is present,
otherwise append at the end. -/
def dictInsert {V : Type} : List (String × V) → String → V → List (String × V)
  | [], k, v => [(k, v)]
  | p :: rest, k, v => if p.1 = k then (k, v) :: rest else p :: dictInsert rest k v

/-- Python-dict lookup `m[k]`, first match. -/
def alookup {V : Type} : List (String × V) → String → Option V
  | [], _ => Option.none
  | p :: rest, k => if p.1 = k then some p.2 else alookup rest k

/-- The keys of an association list, in order. -/
def akeys {V : Type} (m : List (String × V)) : List String := m.map (fun p => p.1)

/-! ### PriorBounds and NoBounds (src/libs/core/src/stream_ml/core/prior/bounds.py) -/

/-- A flattened parameter name: a 1-tuple such as `("weight",)` or a 2-tuple
such as `("phi2", "mu")` (`FlatParamName` in the sources). -/
inductive FlatName where
  | one : String → FlatName
  | two : String → String → FlatName
deriving DecidableEq, Repr

/-- The frozen `PriorBounds` dataclass: `lower`, `upper`, and the optional
`param_name` the bound is stamped with when bound to a parameter slot. -/
structure PriorBounds where
  lower : PyFloat
  upper : PyFloat
  param_name : Option FlatName := Option.none
deriving DecidableEq, Repr

/-- `dataclasses.replace(default, param_name=k)`: a stamped copy. -/
def pbStamp (b : PriorBounds) (k : FlatName) : PriorBounds :=
  { b with param_name := some k }

/-- The `NoBounds()` value: `lower = -inf`, `upper = inf`, no name. -/
def noBounds : PriorBounds :=
  { lower := PyFloat.ninf, upper := PyFloat.pinf, param_name := Option.none }

/-- `NoBounds(lower, upper)` construction: `__post_init__` raises
`ValueError` unless the bounds are exactly `(-inf, inf)`. -/
def noBoundsInit (lower upper : PyFloat) : Except PyErr PriorBounds :=
  if lower ≠ PyFloat.ninf ∨ upper ≠ PyFloat.pinf then Except.error PyErr.valueError
  else Except.ok { lower := lower, upper := upper, param_name := Option.none }

/-! ### ParamBounds (src/libs/core/src/stream_ml/core/params/bounds.py) -/

/-- A top-level entry of a `ParamBounds`: a leaf `PriorBounds`, or a nested
`FrozenDict` of sub-name to `PriorBounds`. -/
inductive PBEntry where
  | leaf : PriorBounds → PBEntry
  | sub : List (String × PriorBounds) → PBEntry
deriving DecidableEq, Repr

/-- The frozen `ParamBounds` mapping. -/
abbrev ParamBounds := List (String × PBEntry)

/-- A key of a Python mapping literal handed to `ParamBounds.__init__`:
either a string or some non-string object. -/
inductive PyKey where
  | str : String → PyKey
  | nonStr : PyKey
deriving DecidableEq, Repr

/-- A value of a mapping literal handed to `ParamBounds.__init__`: a
`PriorBounds` instance, `None`, a nested `Mapping` (whose items are taken to
be the items of a Python dict, so keys are distinct), or a value of any
other type (e.g. an int). -/
inductive PyVal where
  | pb : PriorBounds → PyVal
  | pnone : PyVal
  | pmap : List (String × PyVal) → PyVal
  | other : PyVal

/-- The nested-dict comprehension of `ParamBounds.__init__`: every value
that is not a `PriorBounds` instance is silently replaced by `NoBounds()`. -/
def normSubVal (v : PyVal) : PriorBounds :=
  match v with
  | PyVal.pb b => b
  | _ => noBounds

/-- The validation loop of `ParamBounds.__init__` (lines 33-57): a
non-string key or a value that is neither `PriorBounds`, `None` nor a
`Mapping` raises `TypeError`; `None` degrades to `NoBounds()`; a nested
mapping is rebuilt with `normSubVal` applied to each nested value. -/
def pbInitLoop : List (PyKey × PyVal) → ParamBounds → Except PyErr ParamBounds
  | [], acc => Except.ok acc
  | (PyKey.nonStr, _) :: _, _ => Except.error PyErr.typeError
  | (PyKey.str s, v) :: rest, acc =>
    match v with
    | PyVal.pb b => pbInitLoop rest (dictInsert acc s (PBEntry.leaf b))
    | PyVal.pnone => pbInitLoop rest (dictInsert acc s (PBEntry.leaf noBounds))
    | PyVal.pmap sub =>
        pbInitLoop rest
          (dictInsert acc s (PBEntry.sub (sub.map (fun q => (q.1, normSubVal q.2)))))
    | PyVal.other => Except.error PyErr.typeError

/-- `ParamBounds(m)`: run the validating loop over the literal's items. -/
def pbInit (lit : List (PyKey × PyVal)) : Except PyErr ParamBounds :=
  pbInitLoop lit []

/-- The key forms supported by `ParamBounds.__getitem__` and
`__contains__`: a plain string, a 1-tuple, or a 2-tuple of strings. -/
inductive PBKey where
  | s : String → PBKey
  | t1 : String → PBKey
  | t2 : String → String → PBKey
deriving DecidableEq, Repr

/-- `ParamBounds.__getitem__` (lines 103-118): a string key returns the
entry as-is; a 1-tuple key must resolve to a leaf `PriorBounds`; a 2-tuple
key descends into a nested mapping.  Every failure is a `KeyError`. -/
def pbGetItem (P : ParamBounds) (k : PBKey) : Except PyErr PBEntry :=
  match k with
  | PBKey.s s =>
    match alookup P s with
    | some e => Except.ok e
    | Option.none => Except.error PyErr.keyError
  | PBKey.t1 s =>
    match alookup P s with
    | some (PBEntry.leaf b) => Except.ok (PBEntry.leaf b)
    | some (PBEntry.sub _) => Except.error PyErr.keyError
    | Option.none => Except.error PyErr.keyError
  | PBKey.t2 s t =>
    match alookup P s with
    | some (PBEntry.sub m) =>
      match alookup m t with
      | some b => Except.ok (PBEntry.leaf b)
      | Option.none => Except.error PyErr.keyError
    | some (PBEntry.leaf _) => Except.error PyErr.keyError
    | Option.none => Except.error PyErr.keyError

/-- `ParamBounds.__contains__` (lines 132-142): string membership is direct
dict membership; tuple membership probes `__getitem__`, treating `KeyError`
as absence. -/
def pbContains (P : ParamBounds) (k : PBKey) : Bool :=
  match k with
  | PBKey.s s => P.any (fun p => p.1 = s)
  | _ => exIsOk (pbGetItem P k)

/-- `ParamBounds.flatitems` (lines 147-156). -/
def flatitems (P : ParamBounds) : List (FlatName × PriorBounds) :=
  (P.map (fun p =>
    match p.2 with
    | PBEntry.leaf b => [(FlatName.one p.1, b)]
    | PBEntry.sub m => m.map (fun q => (FlatName.two p.1 q.1, q.2)))).flatten

/-- `ParamBounds.flatkeys` (lines 158-160). -/
def flatkeys (P : ParamBounds) : List FlatName := (flatitems P).map (fun p => p.1)

/-! ### ParamBounds.from_names (lines 59-84) -/

/-- A declared parameter name: a flat string name (e.g. `"weight"`) or a
grouped name (e.g. `("phi2", ("mu", "sigma"))`). -/
inductive PName where
  | flatn : String → PName
  | grouped : String → List String → PName
deriving DecidableEq, Repr

/-- The top-level string key a declared name occupies. -/
def topName : PName → String
  | PName.flatn s => s
  | PName.grouped g _ => g

/-- Flattening one declared name, per the spec's flattening rule:
`"weight"` yields `("weight",)`; `(g, (a, b))` yields `(g, a), (g, b)`. -/
def flattenName : PName → List FlatName
  | PName.flatn s => [FlatName.one s]
  | PName.grouped g subs => subs.map (FlatName.two g)

/-- Flattening a declared-name collection, in declaration order. -/
def flattenNames (ns : List PName) : List FlatName :=
  (ns.map flattenName).flatten

/-- The literal value the `from_names` loop stores for one declared name:
a flat name stores a stamped clone of `default`; a grouped name stores the
nested dict-comprehension of stamped clones (one per sub-name). -/
def pnameVal (default : PriorBounds) : PName → PyVal
  | PName.flatn s => PyVal.pb (pbStamp default (FlatName.one s))
  | PName.grouped g subs =>
      PyVal.pmap
        (subs.foldl
          (fun sm k => dictInsert sm k (PyVal.pb (pbStamp default (FlatName.two g k))))
          [])

/-- The working dict built by the loop of `from_names`: for each declared
name, assign `pnameVal` under the name's top-level key. -/
def fromNamesDict (ns : List PName) (default : PriorBounds) : List (String × PyVal) :=
  ns.foldl (fun m pn => dictInsert m (topName pn) (pnameVal default pn)) []

/-- `ParamBounds.from_names(names, default)`: build the working dict, then
construct through `cls(m)` (i.e. `ParamBounds.__init__`). -/
def fromNames (ns : List PName) (default : PriorBounds) : Except PyErr ParamBounds :=
  pbInit ((fromNamesDict ns default).map (fun p => (PyKey.str p.1, p.2)))

/-! ### Params and the jax MixtureModel (src/libs/jax/src/stream_ml/jax/mixture.py)

`stream_ml.core.params.core` is not under src/, so `Params` is modelled
from the spec's description of the view `get_prefixed` works on. -/

/-- Modelled from the spec: `Params` as addressed by `get_prefixed` — a
mapping whose flat keys are dotted strings such as `"bkg.weight"`, each
holding an array. -/
abbrev Params := List (String × Mat)

/-- Modelled from the spec: `Params.get_prefixed(name)` returns the
sub-`Params` of the keys that start with `"{name}."`, with the prefix
stripped. -/
def getPrefixed (pars : Params) (name : String) : Params :=
  pars.filterMap (fun p =>
    if (name ++ ".").isPrefixOf p.1 then some (p.1.drop (name.length + 1), p.2)
    else Option.none)

/-- A mixture component as the mixture consumes it: the capability set of
its own `ln_likelihood_arr` and `ln_prior_arr`. -/
structure Component where
  lnLikelihood : Params → Mat → Mat
  lnPrior : Params → Mat

/-- A positional argument appearing at the `prior.logpdf(...)` call site of
`MixtureModel.ln_prior_arr`: a `Params` or an array. -/
inductive LogArg where
  | aparams : Params → LogArg
  | aarr : Mat → LogArg

/-- Positional binding against the `PriorBounds.logpdf` signature
`logpdf(mpars, data, model, current_lnpdf=None, /)` declared in
src/libs/core/src/stream_ml/core/prior/bounds.py (lines 38-47): three
required positional-only parameters and an optional fourth; a call that
supplies fewer than three positional arguments raises `TypeError`. -/
def bindLogpdfArgs (args : List LogArg) :
    Except PyErr (LogArg × LogArg × LogArg × Option LogArg) :=
  match args with
  | [a, b, c] => Except.ok (a, b, c, Option.none)
  | [a, b, c, d] => Except.ok (a, b, c, some d)
  | _ => Except.error PyErr.typeError

/-- A top-level mixture prior: the log-density it would contribute once a
call to its `logpdf` binds its positional arguments. -/
structure Prior where
  pdfVal : LogArg × LogArg × LogArg × Option LogArg → Mat

/-- The jax `MixtureModel`: named components in the insertion order of the
component mapping, plus the top-level priors (iterated in order). -/
structure MixtureModel where
  components : List (String × Component)
  priors : List Prior

/-- `MixtureModel.ln_likelihood_arr` (mixture.py lines 65-92), parameterized
by the backend's `logsumexp` row reduction (a jax capability external to
the core): per-component log-likelihoods at the name-stripped parameter
slices, horizontally stacked, reduced along axis 1, reshaped `[:, None]`. -/
def lnLikelihoodArr (lse : List ℚ → ℚ) (M : MixtureModel) (pars : Params)
    (data : Mat) : Mat :=
  colify
    ((hstack
        (M.components.map (fun p => p.2.lnLikelihood (getPrefixed pars p.1) data))).map
      lse)

/-- Elementwise matrix addition (`lp += ...`). -/
def matAdd (a b : Mat) : Mat := List.zipWith (List.zipWith (· + ·)) a b

/-- `MixtureModel.ln_prior_arr` (mixture.py lines 94-119): component
log-priors at the name-stripped slices, stacked and summed along the row
axis (reading the `dim=1` keyword as the intended axis-1 reduction), then
the loop `lp += prior.logpdf(pars, lp)` over the top-level priors — whose
call supplies only two positional arguments to a signature requiring
three. -/
def lnPriorArr (M : MixtureModel) (pars : Params) : Except PyErr Mat := do
  let lps := M.components.map (fun p => p.2.lnPrior (getPrefixed pars p.1))
  let lp0 := colify ((hstack lps).map (fun row => row.sum))
  M.priors.foldlM
    (fun lp prior => do
      let bound ← bindLogpdfArgs [LogArg.aparams pars, LogArg.aarr lp]
      pure (matAdd lp (prior.pdfVal bound)))
    lp0

/-- A top-level item of a `ParamBounds` literal passes `__init__`'s type
validation when its key is a string and its value is a `PriorBounds`,
`None`, or a `Mapping`. -/
def topItemOk : PyKey × PyVal → Bool
  | (PyKey.nonStr, _) => false
  | (_, PyVal.other) => false
  | _ => true

/-- A declared name's sub-name list has no duplicates (trivially true for a
flat name). -/
def subsNodup : PName → Prop
  | PName.flatn _ => True
  | PName.grouped _ subs => subs.Nodup

instance (pn : PName) : Decidable (subsNodup pn) := by
  cases pn <;> (unfold subsNodup; infer_instance)

/-- Normalization `__init__` applies to one accepted top-level value (the
`other` branch is unreachable for accepted values). -/
def normVal : PyVal → PBEntry
  | PyVal.pb b => PBEntry.leaf b
  | PyVal.pnone => PBEntry.leaf noBounds
  | PyVal.pmap sub => PBEntry.sub (sub.map (fun q => (q.1, normSubVal q.2)))
  | PyVal.other => PBEntry.leaf noBounds

/-- A `PyVal` of a type accepted at the top level of a literal. -/
def pyValOk : PyVal → Bool
  | PyVal.other => false
  | _ => true

/-- The entries of a one-column matrix, as a vector. -/
def uncol (m : Mat) : List ℚ := m.map (fun row => row.getD 0 0)

/-! ### Data and the CompoundDataScaler (src/src/stream_ml/core/utils/scale/_multi.py)

`stream_ml.core._data` and the leaf `DataScaler` classes are not under
src/, so both are modelled from the spec: `Data` is a named-column
container over an array of rows, and a leaf scaler owns an ordered tuple of
named columns with an invertible per-column transform (embedded as an
affine map per column, the general form of the standard scalers the spec
describes). -/

/-- Modelled from the spec: the named-column `Data` container — an array of
rows together with the tuple of column names. -/
structure Data where
  array : Mat
  names : List String
deriving DecidableEq, Repr

/-- Modelled from the spec: column selection `data[ns]` — each requested
name is located in `data.names` (a missing name is a key-lookup failure);
the column at that position is read from every row, and a position past a
row's end is an `IndexError` as for out-of-range array indexing. -/
def dataGet (d : Data) (ns : List String) : Except PyErr Data :=
  match ns.mapM (fun n =>
    if n ∈ d.names then Except.ok (d.names.indexOf n)
    else Except.error PyErr.keyError) with
  | Except.error e => Except.error e
  | Except.ok js =>
    match d.array.mapM (fun row =>
      js.mapM (fun j =>
        match row.get? j with
        | some x => Except.ok x
        | Option.none => Except.error PyErr.indexError)) with
    | Except.error e => Except.error e
    | Except.ok rows => Except.ok (Data.mk rows ns)

/-- Modelled from the spec: a leaf `DataScaler` — an ordered list of owned
columns, each with affine coefficients `(a, b)` for the forward transform
`x ↦ a·x + b`. -/
structure AScaler where
  cols : List (String × ℚ × ℚ)
deriving DecidableEq, Repr

/-- The ordered tuple of column names a leaf scaler owns. -/
def AScaler.colNames (s : AScaler) : List String := s.cols.map (fun c => c.1)

/-- Forward per-column transform of a leaf scaler; a name the scaler does
not own passes through unchanged. -/
def AScaler.app (s : AScaler) (n : String) (x : ℚ) : ℚ :=
  match alookup s.cols n with
  | some ab => ab.1 * x + ab.2
  | Option.none => x

/-- Inverse per-column transform of a leaf scaler. -/
def AScaler.inv (s : AScaler) (n : String) (x : ℚ) : ℚ :=
  match alookup s.cols n with
  | some ab => (x - ab.2) / ab.1
  | Option.none => x

/-- Modelled from the spec: a leaf scaler's `transform` on a named-column
`Data`, applied per column. -/
def AScaler.transformD (s : AScaler) (d : Data) : Data :=
  { array := d.array.map (fun row => (d.names.zip row).map (fun p => s.app p.1 p.2)),
    names := d.names }

/-- Modelled from the spec: a leaf scaler's `inverse_transform` on a
named-column `Data`, applied per column. -/
def AScaler.invTransformD (s : AScaler) (d : Data) : Data :=
  { array := d.array.map (fun row => (d.names.zip row).map (fun p => s.inv p.1 p.2)),
    names := d.names }

/-- Modelled from the spec: a leaf scaler's `__getitem__` — a reduced
scaler scoped to the requested columns. -/
def AScaler.getItem (s : AScaler) (ns : List String) : AScaler :=
  { cols := s.cols.filter (fun col => col.1 ∈ ns) }

/-- The `CompoundDataScaler` dataclass: the tuple of sub-scalers. -/
structure CompoundDataScaler where
  scalers : List AScaler
deriving DecidableEq, Repr

/-- The compound's `names`: the concatenation, in sub-scaler order, of the
sub-scalers' names (`functools.reduce(operator.add, ...)` from
`__post_init__`; the reduction of an empty scaler tuple raises, so the
embedding is used for nonempty scaler lists). -/
def CompoundDataScaler.names (c : CompoundDataScaler) : List String :=
  (c.scalers.map AScaler.colNames).flatten

/-- `CompoundDataScaler.__post_init__` (lines 26-41): a duplicate column
name across members raises `ValueError`. -/
def mkCompound (ss : List AScaler) : Except PyErr CompoundDataScaler :=
  if ((ss.map AScaler.colNames).flatten).Nodup then Except.ok { scalers := ss }
  else Except.error PyErr.valueError

/-- `CompoundDataScaler.transform` (lines 67-93), on the named-`Data` path:
for each sub-scaler, select the overlap of its names with the requested
names (in the sub-scaler's own order), delegate, horizontally stack the
results, and label the output with `self.names` — the full compound name
tuple, whatever subset was requested. -/
def CompoundDataScaler.transform (c : CompoundDataScaler) (d : Data)
    (names : List String) : Except PyErr Data :=
  match c.scalers.mapM (fun s =>
    (dataGet d (s.colNames.filter (fun n => n ∈ names))).map
      (fun sub => (s.transformD sub).array)) with
  | Except.error e => Except.error e
  | Except.ok xds => Except.ok (Data.mk (hstack xds) c.names)

/-- `CompoundDataScaler.inverse_transform` (lines 119-145), on the
named-`Data` path: identical routing with the sub-scalers'
`inverse_transform`, output again labelled `self.names`. -/
def CompoundDataScaler.inverseTransform (c : CompoundDataScaler) (d : Data)
    (names : List String) : Except PyErr Data :=
  match c.scalers.mapM (fun s =>
    (dataGet d (s.colNames.filter (fun n => n ∈ names))).map
      (fun sub => (s.invTransformD sub).array)) with
  | Except.error e => Except.error e
  | Except.ok xds => Except.ok (Data.mk (hstack xds) c.names)

/-- Result of `CompoundDataScaler.__getitem__`: a single reduced
sub-scaler, or a compound over the contributing subset. -/
inductive ScalerResult where
  | single : AScaler → ScalerResult
  | compound : CompoundDataScaler → ScalerResult
deriving DecidableEq, Repr

/-- `CompoundDataScaler.__getitem__` (lines 149-157): keep each sub-scaler
whose names overlap the request, reduced via its own `__getitem__`; more
than one contributor yields a compound over the subset (re-running the
constructor's duplicate check), exactly one yields that reduced sub-scaler
directly, and none reaches `scalers[0]` of an empty tuple — an
`IndexError`, not a `KeyError`. -/
def CompoundDataScaler.getItem (c : CompoundDataScaler) (names : List String) :
    Except PyErr ScalerResult :=
  let contributing := c.scalers.filterMap (fun s =>
    if s.colNames.filter (fun n => n ∈ names) = [] then Option.none
    else some (s.getItem (s.colNames.filter (fun n => n ∈ names))))
  match contributing with
  | [] => Except.error PyErr.indexError
  | [s] => Except.ok (ScalerResult.single s)
  | ss => do
      let cc ← mkCompound ss
      Except.ok (ScalerResult.compound cc)

/-- The sub-scalers owning at least one requested name, in order. -/
def contributors (c : CompoundDataScaler) (names : List String) : List AScaler :=
  c.scalers.filter (fun s => s.colNames.any (fun n => n ∈ names))

/-! ### Background model unpacking
(src/libs/pytorch/src/stream_ml/pytorch/background/base.py)

The `stream_ml.core.params` helpers `set_param` and `freeze_params` are not
under src/, so they are modelled from the spec's description of `Params`
as a hierarchical mapping (top-level arrays or nested sub-mappings), with
`freeze_params` the identity of a functional embedding. -/

/-- A value held by a working `Params` dict: an array, or a nested
sub-mapping of sub-name to array. -/
inductive PValue where
  | arr : Mat → PValue
  | sub : List (String × Mat) → PValue
deriving DecidableEq, Repr

/-- A (working or frozen) hierarchical `Params` mapping. -/
abbrev HParams := List (String × PValue)

/-- Modelled from the spec: `set_param(pars, key, value)` — a plain string
or 1-tuple key sets the top-level entry; a 2-tuple key sets the sub-name
inside the nested sub-mapping of its top-level key, creating the
sub-mapping when none is present. -/
def setParam (p : HParams) (k : FlatName) (v : Mat) : HParams :=
  match k with
  | FlatName.one s => dictInsert p s (PValue.arr v)
  | FlatName.two g t =>
    match alookup p g with
    | some (PValue.sub m) => dictInsert p g (PValue.sub (dictInsert m t v))
    | _ => dictInsert p g (PValue.sub [(t, v)])

/-- The column slice `p_arr[:, i : i+1]` (lenient past the row's end, as
tensor slicing is). -/
def colSlice (m : Mat) (i : ℕ) : Mat := m.map (fun row => (row.drop i).take 1)

/-- Reading a flattened entry back out of a `Params`. -/
def getFlat (p : HParams) (k : FlatName) : Option Mat :=
  match k with
  | FlatName.one s =>
    match alookup p s with
    | some (PValue.arr v) => some v
    | _ => Option.none
  | FlatName.two g t =>
    match alookup p g with
    | some (PValue.sub m) => alookup m t
    | _ => Option.none

/-- The top-level key a flattened name lives under. -/
def topKey : FlatName → String
  | FlatName.one s => s
  | FlatName.two g _ => g

/-- Whether a flattened name is grouped (a 2-tuple). -/
def isGrouped : FlatName → Bool
  | FlatName.one _ => false
  | FlatName.two _ _ => true

/-- A background model, as `unpack_params_from_arr` consumes it: its
flattened parameter names. -/
structure BackgroundModel where
  flats : List FlatName

/-- The assignment loop of `unpack_params_from_arr`: enumerate the
filtered flattened names, assigning column `i` to the `i`-th name. -/
def unpackLoop (m : Mat) : List FlatName → ℕ → HParams → HParams
  | [], _, p => p
  | k :: ks, i, p => unpackLoop m ks (i + 1) (setParam p k (colSlice m i))

/-- `BackgroundModel.unpack_params_from_arr` (base.py lines 26-50): set the
`"weight"` entry to a synthesized zero-length array (`xp.asarray([])`,
never read from `p_arr`), then assign the columns of `p_arr`, in order, to
the flattened names other than `("weight",)`; `freeze_params` then freezes
the working dict. -/
def unpackParamsFromArr (M : BackgroundModel) (p_arr : Mat) : HParams :=
  unpackLoop p_arr (M.flats.filter (fun n => n ≠ FlatName.one "weight")) 0
    (dictInsert [] "weight" (PValue.arr []))

/-! ### BoundedHardThreshold
(src/libs/pytorch/src/stream_ml/pytorch/prior/weight.py) -/

/-- Modelled from the spec: `within_bounds(x, lower, upper)` — membership
of the interval from `lower` to `upper` (the helper itself is not under
src/; the bounds default to the infinities). -/
def withinBounds (x : ℚ) (lower upper : PyFloat) : Bool :=
  (match lower with
    | PyFloat.ninf => true
    | PyFloat.pinf => false
    | PyFloat.fin a => a ≤ x) &&
  (match upper with
    | PyFloat.pinf => true
    | PyFloat.ninf => false
    | PyFloat.fin b => x ≤ b)

/-- The `BoundedHardThreshold` dataclass: threshold, coordinate name whose
value gates the rows, and the interval bounds. -/
structure BoundedHardThreshold where
  threshold : ℚ
  coordName : String
  lower : PyFloat
  upper : PyFloat
deriving DecidableEq, Repr

/-- Modelled from the spec: `data[name][:, 0]` — the column of the named
coordinate as a vector. -/
def dataCol (d : Data) (n : String) : List ℚ :=
  d.array.map (fun row => row.getD (d.names.indexOf n) 0)

/-- A single masked assignment target `out[i, j] = x`. -/
def setEntry (m : Mat) (i j : ℕ) (x : ℚ) : Mat :=
  m.set i ((m.getD i []).set j x)

/-- `BoundedHardThreshold.__call__` (weight.py lines 86-108): locate the
weight column through the model's flattened parameter-name index, gather
the rows whose coordinate lies within the bounds, apply
`xp.threshold(·, threshold, 0)` (keep values strictly above the threshold,
else 0) to the weight entries of those rows of a clone of `nn`, and
scatter the results back. -/
def bhtCall (prior : BoundedHardThreshold) (nn : Mat) (d : Data)
    (flat : List String) : Mat :=
  let im1 := flat.indexOf "weight"
  let coord := dataCol d prior.coordName
  let whereIdx := (List.range nn.length).filter
    (fun i => withinBounds (coord.getD i 0) prior.lower prior.upper)
  let vals := whereIdx.map (fun i =>
    if prior.threshold < (nn.getD i []).getD im1 0
    then (nn.getD i []).getD im1 0 else 0)
  (whereIdx.zip vals).foldl (fun acc p => setEntry acc p.1 im1 p.2) nn

/-! ## Theorems -/

/-- C8: `NoBounds()` is constructible, as is any `NoBounds` construction
with lower equal to `-inf` and upper equal to `+inf`; constructing
`NoBounds` with any other lower or upper value (for example
`NoBounds(1.0, 2.0)`) fails with a validation error at construction time. -/
theorem noBounds_construction_validates (lower upper : PyFloat) :
    exIsOk (noBoundsInit lower upper) = true ↔
      (lower = PyFloat.ninf ∧ upper = PyFloat.pinf) := by
  unfold noBoundsInit
  by_cases h1 : lower = PyFloat.ninf
  · by_cases h2 : upper = PyFloat.pinf
    · simp [h1, h2, exIsOk]
    · simp [h1, h2, exIsOk]
  · simp [h1, exIsOk]

/-- Agreement of `alookup` success with key membership, needed for the
string case of `__contains__`. -/
theorem alookup_isSome_iff_any {V : Type} (m : List (String × V)) (s : String) :
    (alookup m s).isSome = m.any (fun p => p.1 = s) := by
  induction m with
  | nil => rfl
  | cons p rest ih =>
      by_cases h : p.1 = s
      · simp [alookup, h]
      · simp [alookup, h, ih]

/-- C5: for every `ParamBounds` instance `P` and every key `k` of each
supported form (plain string, 1-tuple of strings, 2-tuple of strings), the
membership test `k in P` returns `True` exactly when the lookup `P[k]`
succeeds, and `False` exactly when `P[k]` raises a `KeyError`; the two
operations never disagree. -/
theorem paramBounds_contains_agrees_with_getitem (P : ParamBounds) (k : PBKey) :
    pbContains P k = exIsOk (pbGetItem P k) := by
  cases k with
  | s s =>
      show P.any (fun p => p.1 = s) = exIsOk (pbGetItem P (PBKey.s s))
      rw [← alookup_isSome_iff_any]
      cases h : alookup P s <;> simp [pbGetItem, h, exIsOk]
  | t1 s => rfl
  | t2 s t => rfl

/-- Validation behaviour of the `__init__` loop, for any accumulator:
success exactly when every item passes `topItemOk`, and the failure is a
`TypeError`. -/
theorem pbInitLoop_validates (lit : List (PyKey × PyVal)) :
    ∀ acc : ParamBounds,
      (lit.all topItemOk = true → exIsOk (pbInitLoop lit acc) = true) ∧
      (lit.all topItemOk = false → pbInitLoop lit acc = Except.error PyErr.typeError) := by
  induction lit with
  | nil => intro acc; exact ⟨fun _ => rfl, fun h => by simp [List.all] at h⟩
  | cons item rest ih =>
      intro acc
      obtain ⟨k, v⟩ := item
      cases k with
      | nonStr =>
          refine ⟨fun h => ?_, fun _ => rfl⟩
          simp [List.all_cons, topItemOk] at h
      | str s =>
          cases v with
          | pb b =>
              refine ⟨fun h => ?_, fun h => ?_⟩
              · exact (ih _).1 (by simpa [List.all_cons, topItemOk] using h)
              · exact (ih _).2 (by simpa [List.all_cons, topItemOk] using h)
          | pnone =>
              refine ⟨fun h => ?_, fun h => ?_⟩
              · exact (ih _).1 (by simpa [List.all_cons, topItemOk] using h)
              · exact (ih _).2 (by simpa [List.all_cons, topItemOk] using h)
          | pmap sub =>
              refine ⟨fun h => ?_, fun h => ?_⟩
              · exact (ih _).1 (by simpa [List.all_cons, topItemOk] using h)
              · exact (ih _).2 (by simpa [List.all_cons, topItemOk] using h)
          | other =>
              refine ⟨fun h => ?_, fun _ => rfl⟩
              simp [List.all_cons, topItemOk] at h

/-- C6 (amended): construction of a `ParamBounds` from a literal fails,
immediately and with a `TypeError`, exactly when some top-level key is not
a string or some top-level value is neither a `PriorBounds`, `None`, nor a
mapping; values nested inside a sub-mapping are never type-checked (a
malformed nested value is silently replaced by `NoBounds()`). -/
theorem paramBounds_init_toplevel_validation (lit : List (PyKey × PyVal)) :
    (lit.all topItemOk = true → exIsOk (pbInit lit) = true) ∧
    (lit.all topItemOk = false → pbInit lit = Except.error PyErr.typeError) :=
  pbInitLoop_validates lit []

/-- Witness for C6's amended theorem at a concrete malformed literal. -/
theorem paramBounds_init_toplevel_validation_witness :
    ([((PyKey.nonStr : PyKey), PyVal.pnone)].all topItemOk = false) ∧
    pbInit [((PyKey.nonStr : PyKey), PyVal.pnone)] = Except.error PyErr.typeError :=
  ⟨rfl, (paramBounds_init_toplevel_validation _).2 rfl⟩

/-- `dictInsert` on an absent key appends the new entry at the end. -/
theorem dictInsert_of_notMem {V : Type} (m : List (String × V)) (k : String) (v : V)
    (h : ∀ p ∈ m, p.1 ≠ k) : dictInsert m k v = m ++ [(k, v)] := by
  induction m with
  | nil => rfl
  | cons p rest ih =>
      rw [dictInsert, if_neg (h p (List.mem_cons_self p rest))]
      rw [ih (fun q hq => h q (List.mem_cons_of_mem p hq))]
      rfl

/-- Folding dict assignments whose keys are fresh and pairwise distinct
appends the entries in iteration order. -/
theorem foldl_dictInsert_keyed {α V : Type} (key : α → String) (f : α → V) :
    ∀ (xs : List α) (m0 : List (String × V)),
      (∀ x ∈ xs, ∀ p ∈ m0, p.1 ≠ key x) → (xs.map key).Nodup →
      xs.foldl (fun m x => dictInsert m (key x) (f x)) m0 =
        m0 ++ xs.map (fun x => (key x, f x)) := by
  intro xs
  induction xs with
  | nil => intro m0 _ _; simp
  | cons x rest ih =>
      intro m0 hfresh hnd
      rw [List.map_cons] at hnd
      obtain ⟨hx_not, hnd'⟩ := List.nodup_cons.1 hnd
      rw [List.foldl_cons,
        dictInsert_of_notMem m0 (key x) (f x)
          (fun p hp => hfresh x (List.mem_cons_self x rest) p hp)]
      rw [ih (m0 ++ [(key x, f x)])
        (fun y hy p hp => by
          rcases List.mem_append.1 hp with hp | hp
          · exact hfresh y (List.mem_cons_of_mem x hy) p hp
          · have hpe : p = (key x, f x) := by simpa using hp
            subst hpe
            show key x ≠ key y
            intro hkey
            exact hx_not (by rw [hkey]; exact List.mem_map_of_mem key hy))
        hnd']
      simp

/-- Running the `__init__` loop over a literal of string keys and accepted
values with pairwise-distinct, fresh keys appends the normalized entries. -/
theorem pbInitLoop_welltyped (lit : List (String × PyVal)) :
    ∀ acc : ParamBounds,
      (∀ p ∈ lit, pyValOk p.2 = true) →
      (∀ p ∈ lit, ∀ q ∈ acc, q.1 ≠ p.1) →
      (lit.map (fun p => p.1)).Nodup →
      pbInitLoop (lit.map (fun p => (PyKey.str p.1, p.2))) acc =
        Except.ok (acc ++ lit.map (fun p => (p.1, normVal p.2))) := by
  induction lit with
  | nil => intro acc _ _ _; simp [pbInitLoop]
  | cons p rest ih =>
      intro acc hok hfresh hnd
      obtain ⟨s, v⟩ := p
      rw [List.map_cons] at hnd
      obtain ⟨hs_not, hnd'⟩ := List.nodup_cons.1 hnd
      have hins : ∀ e : PBEntry, dictInsert acc s e = acc ++ [(s, e)] :=
        fun e => dictInsert_of_notMem acc s e
          (fun q hq => hfresh (s, v) (List.mem_cons_self _ _) q hq)
      have hfresh' : ∀ e : PBEntry, ∀ p ∈ rest, ∀ q ∈ acc ++ [(s, e)], q.1 ≠ p.1 := by
        intro e p hp q hq
        rcases List.mem_append.1 hq with hq | hq
        · exact hfresh p (List.mem_cons_of_mem _ hp) q hq
        · have hqe : q = (s, e) := by simpa using hq
          subst hqe
          show s ≠ p.1
          intro hkey
          exact hs_not (by rw [hkey]; exact List.mem_map_of_mem (fun p => p.1) hp)
      have hnd2 : (rest.map (fun p => p.1)).Nodup := hnd'
      have hok' : ∀ p ∈ rest, pyValOk p.2 = true :=
        fun p hp => hok p (List.mem_cons_of_mem _ hp)
      cases v with
      | pb b =>
          rw [List.map_cons]
          show pbInitLoop _ (dictInsert acc s (PBEntry.leaf b)) = _
          rw [hins (PBEntry.leaf b),
            ih (acc ++ [(s, PBEntry.leaf b)]) hok' (hfresh' (PBEntry.leaf b)) hnd2]
          simp [normVal]
      | pnone =>
          rw [List.map_cons]
          show pbInitLoop _ (dictInsert acc s (PBEntry.leaf noBounds)) = _
          rw [hins (PBEntry.leaf noBounds),
            ih (acc ++ [(s, PBEntry.leaf noBounds)]) hok' (hfresh' (PBEntry.leaf noBounds)) hnd2]
          simp [normVal]
      | pmap sub =>
          rw [List.map_cons]
          show pbInitLoop _
              (dictInsert acc s (PBEntry.sub (sub.map (fun q => (q.1, normSubVal q.2))))) = _
          rw [hins (PBEntry.sub (sub.map (fun q => (q.1, normSubVal q.2)))),
            ih (acc ++ [(s, PBEntry.sub (sub.map (fun q => (q.1, normSubVal q.2))))]) hok'
              (hfresh' (PBEntry.sub (sub.map (fun q => (q.1, normSubVal q.2))))) hnd2]
          simp [normVal]
      | other =>
          exact absurd (hok (s, PyVal.other) (List.mem_cons_self _ _)) (by simp [pyValOk])

/-- With pairwise-distinct top-level names the `from_names` working dict is
the entry list in declaration order. -/
theorem fromNamesDict_eq (ns : List PName) (default : PriorBounds)
    (hnd : (ns.map topName).Nodup) :
    fromNamesDict ns default = ns.map (fun pn => (topName pn, pnameVal default pn)) := by
  unfold fromNamesDict
  have h := foldl_dictInsert_keyed topName (pnameVal default) ns []
    (fun x _ p hp => absurd hp (List.not_mem_nil p)) hnd
  simpa using h

/-- With duplicate-free sub-names the nested dict comprehension of
`from_names` is the stamped entry list in sub-name order. -/
theorem pnameVal_grouped (default : PriorBounds) (g : String) (subs : List String)
    (hnd : subs.Nodup) :
    pnameVal default (PName.grouped g subs) =
      PyVal.pmap (subs.map (fun k => (k, PyVal.pb (pbStamp default (FlatName.two g k))))) := by
  unfold pnameVal
  exact congrArg PyVal.pmap (by
    simpa using foldl_dictInsert_keyed (fun k : String => k)
      (fun k => PyVal.pb (pbStamp default (FlatName.two g k))) subs []
      (fun x _ p hp => absurd hp (List.not_mem_nil p))
      (by simpa using hnd))

/-- One top-level entry of the `from_names` result flattens to the stamped
clones for that declared name. -/
theorem flatitems_entry (default : PriorBounds) (pn : PName) (h : subsNodup pn) :
    (match normVal (pnameVal default pn) with
      | PBEntry.leaf b => [(FlatName.one (topName pn), b)]
      | PBEntry.sub m => m.map (fun q => (FlatName.two (topName pn) q.1, q.2)))
    = (flattenName pn).map (fun k => (k, pbStamp default k)) := by
  cases pn with
  | flatn s => rfl
  | grouped g subs =>
      rw [pnameVal_grouped default g subs h]
      simp [normVal, normSubVal, flattenName, topName, List.map_map]

/-- C4: for every declared parameter-name collection `N` and every default
bound `B`, `ParamBounds.from_names(N, B)` produces a `ParamBounds` whose
`flatkeys()` equals the flattened form of `N`, and whose value at each
flattened key is a copy of `B` with its `param_name` field set to that
flattened key (grouped names yielding one stamped copy per sub-name).
A valid declared collection associates each top-level key with one entry
(distinct top-level names) and has duplicate-free sub-names. -/
theorem from_names_flatitems (ns : List PName) (default : PriorBounds)
    (hTop : (ns.map topName).Nodup)
    (hSub : ∀ pn ∈ ns, subsNodup pn) :
    Except.map flatitems (fromNames ns default) =
      Except.ok ((flattenNames ns).map (fun k => (k, pbStamp default k))) := by
  unfold fromNames pbInit
  rw [fromNamesDict_eq ns default hTop]
  rw [pbInitLoop_welltyped (ns.map (fun pn => (topName pn, pnameVal default pn))) []
    (by
      intro p hp
      obtain ⟨pn, _, rfl⟩ := List.mem_map.1 hp
      cases pn <;> rfl)
    (fun p _ q hq => absurd hq (List.not_mem_nil q))
    (by simpa [List.map_map, Function.comp] using hTop)]
  simp only [Except.map, List.nil_append, List.map_map]
  congr 1
  unfold flatitems flattenNames
  rw [List.map_map, List.map_flatten, List.map_map]
  congr 1
  refine List.map_congr_left (fun pn hpn => ?_)
  exact flatitems_entry default pn (hSub pn hpn)

/-- Witness for C4 at a concrete declared-name collection holding one flat
and one grouped name. -/
theorem from_names_flatitems_witness :
    (([PName.flatn "weight", PName.grouped "phi2" ["mu", "sigma"]].map topName).Nodup ∧
      ∀ pn ∈ [PName.flatn "weight", PName.grouped "phi2" ["mu", "sigma"]], subsNodup pn) ∧
    Except.map flatitems
        (fromNames [PName.flatn "weight", PName.grouped "phi2" ["mu", "sigma"]]
          { lower := PyFloat.fin 0, upper := PyFloat.fin 1 }) =
      Except.ok
        ((flattenNames [PName.flatn "weight", PName.grouped "phi2" ["mu", "sigma"]]).map
          (fun k => (k, pbStamp { lower := PyFloat.fin 0, upper := PyFloat.fin 1 } k))) :=
  ⟨⟨by decide, by decide⟩,
    from_names_flatitems _ _ (by decide) (by decide)⟩

/-- C6 counterexample: a literal whose nested sub-mapping holds a bound
value of an invalid type (neither `PriorBounds`, `None`, nor a mapping)
does NOT fail at construction: the malformed nested value is silently
replaced by `NoBounds()` and construction succeeds. -/
theorem paramBounds_init_nested_malformed_succeeds :
    pbInit [((PyKey.str "a" : PyKey), PyVal.pmap [("b", PyVal.other)])] =
      Except.ok [("a", PBEntry.sub [("b", noBounds)])] := by
  rfl

/-- `zipWith` over two maps of the same index list is a single map. -/
theorem zipWith_map_map {α β γ δ : Type} (h : β → γ → δ) (f : α → β) (g : α → γ) :
    ∀ l : List α, List.zipWith h (l.map f) (l.map g) = l.map (fun a => h (f a) (g a))
  | [] => rfl
  | a :: l => by
      simp only [List.map_cons, List.zipWith_cons_cons]
      rw [zipWith_map_map h f g l]

/-- Every list is the map of `getD` over its index range. -/
theorem map_range_getD (v : List ℚ) :
    (List.range v.length).map (fun i => v.getD i 0) = v := by
  induction v with
  | nil => rfl
  | cons x xs ih =>
      rw [List.length_cons, List.range_succ_eq_map, List.map_cons, List.map_map]
      simp only [List.getD_cons_zero]
      congr 1

/-- `colify` of a vector, written as a map over the vector's index range. -/
theorem colify_eq_map_range (v : List ℚ) :
    colify v = (List.range v.length).map (fun i => [v.getD i 0]) := by
  unfold colify
  conv_lhs => rw [← map_range_getD v]
  rw [List.map_map]
  exact List.map_congr_left (fun i _ => rfl)

/-- A one-column matrix is `colify` of its entry vector. -/
theorem colify_uncol (r : ℕ) (m : Mat) (h : IsCol r m) : colify (uncol m) = m := by
  unfold colify uncol
  rw [List.map_map]
  refine List.map_congr_left (fun row hrow => ?_) |>.trans (List.map_id m)
  obtain ⟨x, hx⟩ := List.length_eq_one.1 (h.2 row hrow)
  simp [hx]

/-- The entry vector of an `r`-row column has length `r`. -/
theorem uncol_length (r : ℕ) (m : Mat) (h : IsCol r m) : (uncol m).length = r := by
  unfold uncol; rw [List.length_map]; exact h.1

/-- Folding pairwise row concatenation of one-column matrices onto an
accumulator of `r` rows appends one entry per column, rowwise. -/
theorem foldl_zip_cols (r : ℕ) :
    ∀ (vs : List (List ℚ)) (f : ℕ → List ℚ),
      (∀ v ∈ vs, v.length = r) →
      (vs.map colify).foldl (fun a b => List.zipWith (· ++ ·) a b) ((List.range r).map f) =
        (List.range r).map (fun i => f i ++ vs.map (fun v => v.getD i 0)) := by
  intro vs
  induction vs with
  | nil => intro f _; simp
  | cons v rest ih =>
      intro f hlen
      rw [List.map_cons, List.foldl_cons]
      have hv : colify v = (List.range r).map (fun i => [v.getD i 0]) := by
        rw [colify_eq_map_range v, hlen v (List.mem_cons_self v rest)]
      rw [hv, zipWith_map_map (· ++ ·) f (fun i => [v.getD i 0]) (List.range r)]
      rw [ih (fun i => f i ++ [v.getD i 0]) (fun w hw => hlen w (List.mem_cons_of_mem v hw))]
      refine List.map_congr_left (fun i _ => ?_)
      simp

/-- Horizontal stacking of one-column matrices of equal row count `r`
yields, rowwise, the list of the columns' entries at that row. -/
theorem hstack_cols (r : ℕ) (vs : List (List ℚ)) (hne : vs ≠ [])
    (hlen : ∀ v ∈ vs, v.length = r) :
    hstack (vs.map colify) = (List.range r).map (fun i => vs.map (fun v => v.getD i 0)) := by
  cases vs with
  | nil => exact absurd rfl hne
  | cons v rest =>
      rw [List.map_cons]
      show (rest.map colify).foldl (fun a b => List.zipWith (· ++ ·) a b) (colify v) =
        (List.range r).map (fun i => (v :: rest).map (fun w => w.getD i 0))
      have hv : colify v = (List.range r).map (fun i => [v.getD i 0]) := by
        rw [colify_eq_map_range v, hlen v (List.mem_cons_self v rest)]
      rw [hv, foldl_zip_cols r rest (fun i => [v.getD i 0])
        (fun w hw => hlen w (List.mem_cons_of_mem v hw))]
      refine List.map_congr_left (fun i _ => ?_)
      simp

/-- C1: for every mixture model with named components in insertion order of
the component mapping, every parameter set `pars` and data `d`,
`MixtureModel.ln_likelihood_arr(pars, d, *args)` equals the log-sum-exp,
taken along the component axis, of the horizontal stack of each
component's own `ln_likelihood_arr` evaluated at `pars.get_prefixed(name)`
for that component's name, reshaped to one column per data row: when each
component's output is a column of `r` data rows, row `i` of the result is
the single value `lse` applied to the list of the components' entries at
row `i`, in component order. -/
theorem mixture_ln_likelihood_is_rowwise_logsumexp (lse : List ℚ → ℚ)
    (M : MixtureModel) (pars : Params) (data : Mat) (r : ℕ)
    (hne : M.components ≠ [])
    (hcol : ∀ p ∈ M.components, IsCol r (p.2.lnLikelihood (getPrefixed pars p.1) data)) :
    lnLikelihoodArr lse M pars data =
      colify ((List.range r).map (fun i =>
        lse (M.components.map (fun p =>
          (uncol (p.2.lnLikelihood (getPrefixed pars p.1) data)).getD i 0)))) := by
  have hne2 :
      M.components.map (fun p => uncol (p.2.lnLikelihood (getPrefixed pars p.1) data)) ≠ [] := by
    intro hnil
    exact hne (List.map_eq_nil_iff.1 hnil)
  have hlen2 :
      ∀ v ∈ M.components.map (fun p => uncol (p.2.lnLikelihood (getPrefixed pars p.1) data)),
        v.length = r := by
    intro v hv
    obtain ⟨p, hp, rfl⟩ := List.mem_map.1 hv
    exact uncol_length r _ (hcol p hp)
  have hliks :
      M.components.map (fun p => p.2.lnLikelihood (getPrefixed pars p.1) data) =
        (M.components.map (fun p => uncol (p.2.lnLikelihood (getPrefixed pars p.1) data))).map
          colify := by
    rw [List.map_map]
    exact List.map_congr_left (fun p hp => (colify_uncol r _ (hcol p hp)).symm)
  unfold lnLikelihoodArr colify
  rw [hliks, hstack_cols r _ hne2 hlen2]
  simp only [List.map_map]
  refine List.map_congr_left (fun i _ => ?_)
  refine congrArg (fun q : ℚ => [q]) (congrArg lse ?_)
  exact List.map_congr_left (fun p _ => rfl)

/-- Witness for C1 at a concrete two-component mixture with columns of two
rows, with the backend reduction instantiated to list summation. -/
theorem mixture_ln_likelihood_witness :
    (([("stream", ({ lnLikelihood := fun _ _ => [[(1 : ℚ)], [2]],
                     lnPrior := fun _ => [] } : Component)),
       ("bkg", ({ lnLikelihood := fun _ _ => [[(3 : ℚ)], [4]],
                  lnPrior := fun _ => [] } : Component))] : List (String × Component)) ≠ [] ∧
      ∀ p ∈ ([("stream", ({ lnLikelihood := fun _ _ => [[(1 : ℚ)], [2]],
                            lnPrior := fun _ => [] } : Component)),
              ("bkg", ({ lnLikelihood := fun _ _ => [[(3 : ℚ)], [4]],
                         lnPrior := fun _ => [] } : Component))] : List (String × Component)),
        IsCol 2 (p.2.lnLikelihood (getPrefixed [] p.1) [])) ∧
    lnLikelihoodArr (fun xs => xs.sum)
        { components :=
            [("stream", { lnLikelihood := fun _ _ => [[(1 : ℚ)], [2]],
                          lnPrior := fun _ => [] }),
             ("bkg", { lnLikelihood := fun _ _ => [[(3 : ℚ)], [4]],
                       lnPrior := fun _ => [] })],
          priors := [] } [] [] =
      colify ((List.range 2).map (fun i =>
        (fun xs => List.sum xs)
          (([("stream", ({ lnLikelihood := fun _ _ => [[(1 : ℚ)], [2]],
                           lnPrior := fun _ => [] } : Component)),
             ("bkg", ({ lnLikelihood := fun _ _ => [[(3 : ℚ)], [4]],
                        lnPrior := fun _ => [] } : Component))] : List (String × Component)).map
            (fun p => (uncol (p.2.lnLikelihood (getPrefixed [] p.1) [])).getD i 0)))) :=
  ⟨⟨List.cons_ne_nil _ _,
      by
        intro p hp
        rcases List.mem_cons.1 hp with h | hp2
        · rw [h]; decide
        · rcases List.mem_cons.1 hp2 with h | hp3
          · rw [h]; decide
          · exact absurd hp3 (List.not_mem_nil p)⟩,
    mixture_ln_likelihood_is_rowwise_logsumexp (fun xs => xs.sum) _ [] [] 2
      (List.cons_ne_nil _ _)
      (by
        intro p hp
        rcases List.mem_cons.1 hp with h | hp2
        · rw [h]; decide
        · rcases List.mem_cons.1 hp2 with h | hp3
          · rw [h]; decide
          · exact absurd hp3 (List.not_mem_nil p))⟩

/-- C2 (evidence of the code bug): `MixtureModel.ln_prior_arr` does not
thread the running total as the `current_lnpdf` argument of
`logpdf(mpars, data, model, current_lnpdf)`; its call
`prior.logpdf(pars, lp)` supplies only two positional arguments to a
positional-only signature requiring three, so for a mixture with a
top-level prior the call raises `TypeError`, here evaluated on a concrete
one-component, one-prior mixture. -/
theorem mixture_ln_prior_arr_raises_typeerror :
    lnPriorArr
        { components :=
            [("stream", { lnLikelihood := fun _ _ => [],
                          lnPrior := fun _ => [[(0 : ℚ)]] })],
          priors := [{ pdfVal := fun _ => [[(0 : ℚ)]] }] } [] =
      Except.error PyErr.typeError := by
  rfl

/-- The contributing-scaler computation inside `__getitem__`, rewritten as
a map over the sub-scalers that own at least one requested name. -/
theorem getitem_contributing_eq (l : List AScaler) (names : List String) :
    l.filterMap (fun s =>
      if s.colNames.filter (fun n => n ∈ names) = [] then Option.none
      else some (s.getItem (s.colNames.filter (fun n => n ∈ names)))) =
    (l.filter (fun s => s.colNames.any (fun n => n ∈ names))).map
      (fun s => s.getItem (s.colNames.filter (fun n => n ∈ names))) := by
  induction l with
  | nil => rfl
  | cons s rest ih =>
      rw [List.filterMap_cons, List.filter_cons]
      by_cases h : s.colNames.filter (fun n => n ∈ names) = []
      · have hany : s.colNames.any (fun n => n ∈ names) = false := by
          rw [List.any_eq_false]
          intro x hx
          exact (List.filter_eq_nil_iff.1 h) x hx
        rw [if_pos h, hany]
        simpa using ih
      · have hany : s.colNames.any (fun n => n ∈ names) = true := by
          by_contra hfalse
          have hf : s.colNames.any (fun n => n ∈ names) = false := by
            cases hb : s.colNames.any (fun n => n ∈ names)
            · rfl
            · exact absurd hb hfalse
          exact h (List.filter_eq_nil_iff.2 (List.any_eq_false.1 hf))
        rw [if_neg h, hany]
        simp only [if_pos]
        rw [List.map_cons, ih]

/-- The names of a reduced leaf scaler are the owned names filtered to the
request, in the scaler's own order. -/
theorem getItem_colNames (s : AScaler) (ns : List String) :
    (s.getItem ns).colNames = s.colNames.filter (fun n => n ∈ ns) := by
  show (s.cols.filter (fun col => col.1 ∈ ns)).map (fun c => c.1) =
    (s.cols.map (fun c => c.1)).filter (fun n => n ∈ ns)
  rw [List.filter_map]
  rfl

/-- Shrinking both the outer list (to a sublist) and each member's name
list (to a sublist) shrinks the flattened name list to a sublist. -/
theorem flatten_map_sublist (f g : AScaler → List String)
    (h : ∀ s : AScaler, (f s).Sublist (g s)) :
    ∀ {l1 l2 : List AScaler}, l1.Sublist l2 →
      ((l1.map f).flatten).Sublist ((l2.map g).flatten) := by
  intro l1 l2 hsub
  induction hsub with
  | slnil => exact List.Sublist.refl _
  | cons a hs ih =>
      rw [List.map_cons, List.flatten_cons]
      exact ih.trans (List.sublist_append_right _ _)
  | cons₂ a hs ih =>
      rw [List.map_cons, List.flatten_cons, List.map_cons, List.flatten_cons]
      exact List.Sublist.append (h a) ih

/-- C10: for every `CompoundDataScaler` (with the construction invariant of
globally unique column names) and every requested name tuple,
`__getitem__` succeeds whenever at least one sub-scaler owns at least one
requested name — returning that single contributing sub-scaler reduced to
the overlapping names when exactly one contributes, and a new compound
scaler over the contributing reduced subset otherwise — and when no
sub-scaler owns any requested name the lookup fails with an `IndexError`
(selecting the first element of an empty tuple), not a key-lookup
failure. -/
theorem compound_getitem_contribution_cases (c : CompoundDataScaler)
    (names : List String) (hnd : c.names.Nodup) :
    (contributors c names = [] →
      c.getItem names = Except.error PyErr.indexError) ∧
    (∀ s : AScaler, contributors c names = [s] →
      c.getItem names =
        Except.ok (ScalerResult.single
          (s.getItem (s.colNames.filter (fun n => n ∈ names))))) ∧
    (1 < (contributors c names).length →
      c.getItem names =
        Except.ok (ScalerResult.compound (CompoundDataScaler.mk
          ((contributors c names).map
            (fun s => s.getItem (s.colNames.filter (fun n => n ∈ names))))))) := by
  have hre :
      c.getItem names =
        match (contributors c names).map
            (fun s => s.getItem (s.colNames.filter (fun n => n ∈ names))) with
        | [] => Except.error PyErr.indexError
        | [s] => Except.ok (ScalerResult.single s)
        | ss => Except.bind (mkCompound ss)
            (fun cc => Except.ok (ScalerResult.compound cc)) := by
    unfold CompoundDataScaler.getItem contributors
    rw [getitem_contributing_eq]
    rfl
  refine ⟨?_, ?_, ?_⟩
  · intro h0
    rw [hre, h0]
    rfl
  · intro s h1
    rw [hre, h1]
    rfl
  · intro h2
    rcases hl : contributors c names with _ | ⟨x, _ | ⟨y, rest⟩⟩
    · rw [hl] at h2; exact absurd h2 (by simp)
    · rw [hl] at h2; exact absurd h2 (by simp)
    · have hnodup :
          ((((x :: y :: rest).map
              (fun s => s.getItem (s.colNames.filter (fun n => n ∈ names)))).map
            AScaler.colNames).flatten).Nodup := by
        refine List.Nodup.sublist ?_ hnd
        rw [List.map_map]
        unfold CompoundDataScaler.names
        refine flatten_map_sublist _ _ (fun s => ?_) ?_
        · rw [Function.comp_apply, getItem_colNames]
          exact List.filter_sublist _
        · rw [← hl]
          exact List.filter_sublist _
      have hmk :
          mkCompound ((x :: y :: rest).map
              (fun s => s.getItem (s.colNames.filter (fun n => n ∈ names)))) =
            Except.ok (CompoundDataScaler.mk ((x :: y :: rest).map
              (fun s => s.getItem (s.colNames.filter (fun n => n ∈ names))))) := by
        unfold mkCompound
        rw [if_pos hnodup]
      rw [hre, hl]
      show Except.bind
          (mkCompound ((x :: y :: rest).map
            (fun s => s.getItem (s.colNames.filter (fun n => n ∈ names)))))
          (fun cc => Except.ok (ScalerResult.compound cc)) = _
      rw [hmk]
      rfl

/-- Witness for C10 at a concrete compound with two contributing
sub-scalers. -/
theorem compound_getitem_witness :
    ((CompoundDataScaler.names
        (CompoundDataScaler.mk [AScaler.mk [("a", 1, 0)], AScaler.mk [("b", 1, 0)]])).Nodup ∧
      1 < (contributors
        (CompoundDataScaler.mk [AScaler.mk [("a", 1, 0)], AScaler.mk [("b", 1, 0)]])
        ["a", "b"]).length) ∧
    CompoundDataScaler.getItem
        (CompoundDataScaler.mk [AScaler.mk [("a", 1, 0)], AScaler.mk [("b", 1, 0)]])
        ["a", "b"] =
      Except.ok (ScalerResult.compound (CompoundDataScaler.mk
        ((contributors
            (CompoundDataScaler.mk [AScaler.mk [("a", 1, 0)], AScaler.mk [("b", 1, 0)]])
            ["a", "b"]).map
          (fun s => s.getItem (s.colNames.filter (fun n => n ∈ ["a", "b"])))))) :=
  ⟨⟨by decide, by decide⟩,
    (compound_getitem_contribution_cases _ _ (by decide)).2.2 (by decide)⟩

/-- C3 counterexample: the round-trip claim fails for an input whose
columns are a strict subset of the sub-scalers' name union.  With
`S1 = {a}`, `S2 = {b, c}` (disjoint, each trivially satisfying its own
round-trip identity) and `X` with columns `(a, c)` (a subset of the
union), `transform` labels its two-column output with the full name tuple
`(a, b, c)`, so the inverse pass looks column `c` up at position 2 of a
two-column array and the composition fails with an `IndexError` instead of
recovering `X`. -/
theorem compound_roundtrip_fails_on_strict_subset :
    ((CompoundDataScaler.names (CompoundDataScaler.mk
        [AScaler.mk [("a", 1, 0)], AScaler.mk [("b", 1, 0), ("c", 1, 0)]])).Nodup ∧
      (((AScaler.mk [("a", (1 : ℚ), (0 : ℚ))]).cols ++
          (AScaler.mk [("b", 1, 0), ("c", 1, 0)]).cols).all
        (fun col => col.2.1 ≠ 0)) = true ∧
      (["a", "c"].all (fun n => n ∈ CompoundDataScaler.names (CompoundDataScaler.mk
        [AScaler.mk [("a", 1, 0)], AScaler.mk [("b", 1, 0), ("c", 1, 0)]]))) = true) ∧
    ((CompoundDataScaler.transform (CompoundDataScaler.mk
        [AScaler.mk [("a", 1, 0)], AScaler.mk [("b", 1, 0), ("c", 1, 0)]])
        (Data.mk [[1, 2]] ["a", "c"]) ["a", "c"]).bind
      (fun y => CompoundDataScaler.inverseTransform (CompoundDataScaler.mk
        [AScaler.mk [("a", 1, 0)], AScaler.mk [("b", 1, 0), ("c", 1, 0)]])
        y ["a", "c"])) = Except.error PyErr.indexError :=
  ⟨⟨by decide, by decide, by decide⟩, rfl⟩

/-- An effectful map succeeds elementwise when every element maps cleanly. -/
theorem mapM_ok_of_map {α β : Type} (f : α → Except PyErr β) (g : α → β) :
    ∀ l : List α, (∀ a ∈ l, f a = Except.ok (g a)) → l.mapM f = Except.ok (l.map g) := by
  intro l
  induction l with
  | nil => intro _; rfl
  | cons a l ih =>
      intro h
      rw [List.mapM_cons, h a (List.mem_cons_self a l),
        ih (fun b hb => h b (List.mem_cons_of_mem a hb))]
      rfl

/-- Index positions of duplicate-free names within themselves. -/
theorem map_indexOf_self (l : List String) (hnd : l.Nodup) :
    l.map (fun n => l.indexOf n) = List.range l.length := by
  induction l with
  | nil => rfl
  | cons a l ih =>
      obtain ⟨hna, hnd2⟩ := List.nodup_cons.1 hnd
      rw [List.map_cons, List.indexOf_cons_self, List.length_cons, List.range_succ_eq_map]
      have hstep : l.map (fun n => (a :: l).indexOf n) =
          (l.map (fun n => l.indexOf n)).map (fun i => i + 1) := by
        rw [List.map_map]
        refine List.map_congr_left (fun n hn => ?_)
        have hne : a ≠ n := fun he => hna (by rw [he]; exact hn)
        rw [List.indexOf_cons_ne l hne]
        rfl
      rw [hstep, ih hnd2]

/-- Positions of left-block names within an appended name list. -/
theorem map_indexOf_append_left (n1 n2 : List String) (hnd : (n1 ++ n2).Nodup) :
    n1.map (fun n => (n1 ++ n2).indexOf n) = List.range n1.length := by
  have h1 : n1.Nodup := (List.nodup_append.1 hnd).1
  exact (List.map_congr_left (fun n hn => List.indexOf_append_of_mem hn)).trans
    (map_indexOf_self n1 h1)

/-- Positions of right-block names within an appended name list. -/
theorem map_indexOf_append_right (n1 n2 : List String) (hnd : (n1 ++ n2).Nodup) :
    n2.map (fun n => (n1 ++ n2).indexOf n) =
      (List.range n2.length).map (fun i => n1.length + i) := by
  obtain ⟨h1, h2, hdisj⟩ := List.nodup_append.1 hnd
  have hstep : n2.map (fun n => (n1 ++ n2).indexOf n) =
      (n2.map (fun n => n2.indexOf n)).map (fun i => n1.length + i) := by
    rw [List.map_map]
    refine List.map_congr_left (fun n hn => ?_)
    have hnot : n ∉ n1 := fun hin => hdisj hin hn
    exact List.indexOf_append_of_not_mem hnot
  rw [hstep, map_indexOf_self n2 h2]

/-- Reading out a prefix of a row by its index range. -/
theorem map_range_getD_take (row : List ℚ) :
    ∀ k : ℕ, k ≤ row.length →
      (List.range k).map (fun j => row.getD j 0) = row.take k := by
  induction row with
  | nil =>
      intro k hk
      rw [Nat.le_zero.1 hk]
      rfl
  | cons x xs ih =>
      intro k hk
      cases k with
      | zero => rfl
      | succ m =>
          rw [List.range_succ_eq_map, List.map_cons, List.map_map]
          simp only [List.getD_cons_zero]
          rw [List.take_succ_cons]
          congr 1
          refine (List.map_congr_left fun j _ => ?_).trans
            (ih m (Nat.le_of_succ_le_succ hk))
          rfl

/-- Reading out an offset block of a row by an index range. -/
theorem map_range_getD_drop (row : List ℚ) (off k : ℕ) (h : off + k ≤ row.length) :
    (List.range k).map (fun j => row.getD (off + j) 0) = (row.drop off).take k := by
  have hlen : k ≤ (row.drop off).length := by
    rw [List.length_drop]
    omega
  rw [← map_range_getD_take (row.drop off) k hlen]
  refine List.map_congr_left (fun j _ => ?_)
  rw [List.getD_eq_getElem?_getD, List.getD_eq_getElem?_getD, List.getElem?_drop]

/-- A successful association-list lookup returns a stored entry. -/
theorem alookup_mem {V : Type} :
    ∀ (m : List (String × V)) (k : String) (v : V),
      alookup m k = some v → (k, v) ∈ m := by
  intro m
  induction m with
  | nil => intro k v h; exact absurd h (by simp [alookup])
  | cons p rest ih =>
      intro k v h
      obtain ⟨a, b⟩ := p
      by_cases hk : a = k
      · rw [alookup, if_pos hk] at h
        have hb : b = v := Option.some.inj h
        rw [← hk, ← hb]
        exact List.mem_cons_self _ _
      · rw [alookup, if_neg hk] at h
        exact List.mem_cons_of_mem _ (ih k v h)

/-- On every column of an invertible leaf scaler the inverse transform
undoes the forward transform. -/
theorem inv_app (s : AScaler) (hinv : ∀ col ∈ s.cols, col.2.1 ≠ 0)
    (n : String) (x : ℚ) : s.inv n (s.app n x) = x := by
  unfold AScaler.app AScaler.inv
  cases h : alookup s.cols n with
  | none => rfl
  | some ab =>
      have hmem : (n, ab) ∈ s.cols := alookup_mem s.cols n ab h
      have ha : ab.1 ≠ 0 := hinv (n, ab) hmem
      show (ab.1 * x + ab.2 - ab.2) / ab.1 = x
      rw [add_sub_cancel_right, mul_div_cancel_left₀ x ha]

/-- Rowwise inversion of a rowwise application of an invertible leaf
scaler. -/
theorem zip_inv_app (s : AScaler) (hinv : ∀ col ∈ s.cols, col.2.1 ≠ 0) :
    ∀ (ns : List String) (u : List ℚ), ns.length = u.length →
      (ns.zip ((ns.zip u).map (fun p => s.app p.1 p.2))).map
        (fun p => s.inv p.1 p.2) = u := by
  intro ns
  induction ns with
  | nil =>
      intro u hu
      rw [List.length_eq_zero.1 hu.symm]
      rfl
  | cons n ns ih =>
      intro u hu
      cases u with
      | nil => exact absurd hu (by simp)
      | cons x u2 =>
          rw [List.zip_cons_cons, List.map_cons, List.zip_cons_cons, List.map_cons]
          rw [inv_app s hinv n x, ih u2 (by simpa using hu)]

/-- `dataGet` on present names and in-bounds positions selects, from every
row, the entries at each requested name's index. -/
theorem dataGet_ok (d : Data) (ns : List String)
    (hmem : ∀ n ∈ ns, n ∈ d.names)
    (hbound : ∀ row ∈ d.array, ∀ n ∈ ns, d.names.indexOf n < row.length) :
    dataGet d ns = Except.ok (Data.mk
      (d.array.map (fun row => ns.map (fun n => row.getD (d.names.indexOf n) 0))) ns) := by
  have h1 : ns.mapM (fun n =>
      if n ∈ d.names then Except.ok (d.names.indexOf n)
      else Except.error PyErr.keyError) =
      Except.ok (ns.map (fun n => d.names.indexOf n)) :=
    mapM_ok_of_map _ _ ns (fun n hn => by rw [if_pos (hmem n hn)])
  have h2 : d.array.mapM (fun row =>
      (ns.map (fun n => d.names.indexOf n)).mapM (fun j =>
        match row.get? j with
        | some x => Except.ok x
        | Option.none => Except.error PyErr.indexError)) =
      Except.ok (d.array.map (fun row =>
        ns.map (fun n => row.getD (d.names.indexOf n) 0))) := by
    refine mapM_ok_of_map _ _ d.array (fun row hrow => ?_)
    have h3 : (ns.map (fun n => d.names.indexOf n)).mapM (fun j =>
        match row.get? j with
        | some x => Except.ok x
        | Option.none => Except.error PyErr.indexError) =
        Except.ok ((ns.map (fun n => d.names.indexOf n)).map (fun j => row.getD j 0)) := by
      refine mapM_ok_of_map _ _ _ (fun j hj => ?_)
      obtain ⟨n, hn, rfl⟩ := List.mem_map.1 hj
      have hlt : d.names.indexOf n < row.length := hbound row hrow n hn
      rw [List.get?_eq_getElem?, List.getElem?_eq_getElem hlt]
      rw [List.getD_eq_getElem?_getD, List.getElem?_eq_getElem hlt]
      rfl
    rw [h3, List.map_map]
    rfl
  unfold dataGet
  rw [h1]
  show (match d.array.mapM (fun row =>
      (ns.map (fun n => d.names.indexOf n)).mapM (fun j =>
        match row.get? j with
        | some x => Except.ok x
        | Option.none => Except.error PyErr.indexError)) with
    | Except.error e => Except.error e
    | Except.ok rows => Except.ok (Data.mk rows ns)) = _
  rw [h2]

/-- Selecting the left block of names of an appended name layout takes each
row's prefix. -/
theorem dataGet_left_block (n1 n2 : List String) (d : Data)
    (hnd : (n1 ++ n2).Nodup) (hdn : d.names = n1 ++ n2)
    (hrect : ∀ row ∈ d.array, row.length = d.names.length) :
    dataGet d n1 =
      Except.ok (Data.mk (d.array.map (fun row => row.take n1.length)) n1) := by
  have hmem : ∀ n ∈ n1, n ∈ d.names := by
    intro n hn; rw [hdn]; exact List.mem_append_left n2 hn
  have hbound : ∀ row ∈ d.array, ∀ n ∈ n1, d.names.indexOf n < row.length := by
    intro row hrow n hn
    rw [hrect row hrow]
    exact List.indexOf_lt_length.2 (hmem n hn)
  rw [dataGet_ok d n1 hmem hbound]
  refine congrArg Except.ok (congrArg (fun a => Data.mk a n1) ?_)
  refine List.map_congr_left (fun row hrow => ?_)
  have hsel : n1.map (fun n => row.getD (d.names.indexOf n) 0) =
      (n1.map (fun n => (n1 ++ n2).indexOf n)).map (fun j => row.getD j 0) := by
    rw [List.map_map]
    refine List.map_congr_left (fun n _ => ?_)
    rw [hdn]
    rfl
  rw [hsel, map_indexOf_append_left n1 n2 hnd,
    map_range_getD_take row n1.length
      (by rw [hrect row hrow, hdn, List.length_append]; omega)]

/-- Selecting the right block of names of an appended name layout drops
each row's prefix. -/
theorem dataGet_right_block (n1 n2 : List String) (d : Data)
    (hnd : (n1 ++ n2).Nodup) (hdn : d.names = n1 ++ n2)
    (hrect : ∀ row ∈ d.array, row.length = d.names.length) :
    dataGet d n2 =
      Except.ok (Data.mk (d.array.map (fun row => row.drop n1.length)) n2) := by
  have hmem : ∀ n ∈ n2, n ∈ d.names := by
    intro n hn; rw [hdn]; exact List.mem_append_right n1 hn
  have hbound : ∀ row ∈ d.array, ∀ n ∈ n2, d.names.indexOf n < row.length := by
    intro row hrow n hn
    rw [hrect row hrow]
    exact List.indexOf_lt_length.2 (hmem n hn)
  rw [dataGet_ok d n2 hmem hbound]
  refine congrArg Except.ok (congrArg (fun a => Data.mk a n2) ?_)
  refine List.map_congr_left (fun row hrow => ?_)
  have hrowlen : row.length = n1.length + n2.length := by
    rw [hrect row hrow, hdn, List.length_append]
  have hsel : n2.map (fun n => row.getD (d.names.indexOf n) 0) =
      (n2.map (fun n => (n1 ++ n2).indexOf n)).map (fun j => row.getD j 0) := by
    rw [List.map_map]
    refine List.map_congr_left (fun n _ => ?_)
    rw [hdn]
    rfl
  rw [hsel, map_indexOf_append_right n1 n2 hnd, List.map_map]
  have hdropfull : (row.drop n1.length).take n2.length = row.drop n1.length := by
    refine List.take_of_length_le ?_
    rw [List.length_drop, hrowlen]
    omega
  rw [← hdropfull, ← map_range_getD_drop row n1.length n2.length (by omega)]
  rfl

/-- `CompoundDataScaler.transform` of a two-member compound, requested with
names covering both members, on a rectangular `Data` laid out in compound
order: each row splits into the two blocks, each block is transformed by
its owning scaler, and the output carries the compound's full name tuple. -/
theorem transform_full (s1 s2 : AScaler) (d : Data) (req : List String)
    (hnd : (s1.colNames ++ s2.colNames).Nodup)
    (hdn : d.names = s1.colNames ++ s2.colNames)
    (hreq : ∀ n ∈ s1.colNames ++ s2.colNames, n ∈ req)
    (hrect : ∀ row ∈ d.array, row.length = d.names.length) :
    (CompoundDataScaler.mk [s1, s2]).transform d req =
      Except.ok (Data.mk
        (d.array.map (fun row =>
          (s1.colNames.zip (row.take s1.colNames.length)).map
            (fun p => s1.app p.1 p.2) ++
          (s2.colNames.zip (row.drop s1.colNames.length)).map
            (fun p => s2.app p.1 p.2)))
        (CompoundDataScaler.mk [s1, s2]).names) := by
  have hfil1 : s1.colNames.filter (fun n => n ∈ req) = s1.colNames :=
    List.filter_eq_self.2 (fun n hn => by
      simpa using hreq n (List.mem_append_left _ hn))
  have hfil2 : s2.colNames.filter (fun n => n ∈ req) = s2.colNames :=
    List.filter_eq_self.2 (fun n hn => by
      simpa using hreq n (List.mem_append_right _ hn))
  have hG1 := dataGet_left_block s1.colNames s2.colNames d hnd hdn hrect
  have hG2 := dataGet_right_block s1.colNames s2.colNames d hnd hdn hrect
  have hm : ([s1, s2] : List AScaler).mapM (fun s =>
      (dataGet d (s.colNames.filter (fun n => n ∈ req))).map
        (fun sub => (s.transformD sub).array)) =
      Except.ok
        [(s1.transformD (Data.mk (d.array.map (fun row => row.take s1.colNames.length))
            s1.colNames)).array,
         (s2.transformD (Data.mk (d.array.map (fun row => row.drop s1.colNames.length))
            s2.colNames)).array] := by
    simp only [List.mapM_cons, List.mapM_nil]
    rw [hfil1, hfil2, hG1, hG2]
    rfl
  show (match ([s1, s2] : List AScaler).mapM (fun s =>
      (dataGet d (s.colNames.filter (fun n => n ∈ req))).map
        (fun sub => (s.transformD sub).array)) with
    | Except.error e => Except.error e
    | Except.ok xds =>
        Except.ok (Data.mk (hstack xds) (CompoundDataScaler.mk [s1, s2]).names)) = _
  rw [hm]
  show Except.ok (Data.mk (hstack
      [(d.array.map (fun row => row.take s1.colNames.length)).map
          (fun row => (s1.colNames.zip row).map (fun p => s1.app p.1 p.2)),
       (d.array.map (fun row => row.drop s1.colNames.length)).map
          (fun row => (s2.colNames.zip row).map (fun p => s2.app p.1 p.2))])
      (CompoundDataScaler.mk [s1, s2]).names) = _
  refine congrArg Except.ok (congrArg (fun a => Data.mk a _) ?_)
  show List.zipWith (· ++ ·)
      ((d.array.map (fun row => row.take s1.colNames.length)).map
        (fun row => (s1.colNames.zip row).map (fun p => s1.app p.1 p.2)))
      ((d.array.map (fun row => row.drop s1.colNames.length)).map
        (fun row => (s2.colNames.zip row).map (fun p => s2.app p.1 p.2))) = _
  rw [List.map_map, List.map_map, zipWith_map_map]
  rfl

/-- `CompoundDataScaler.inverse_transform` of a two-member compound under
the same conditions: blockwise inverse transforms, output labelled with the
compound's full name tuple. -/
theorem inverse_full (s1 s2 : AScaler) (d : Data) (req : List String)
    (hnd : (s1.colNames ++ s2.colNames).Nodup)
    (hdn : d.names = s1.colNames ++ s2.colNames)
    (hreq : ∀ n ∈ s1.colNames ++ s2.colNames, n ∈ req)
    (hrect : ∀ row ∈ d.array, row.length = d.names.length) :
    (CompoundDataScaler.mk [s1, s2]).inverseTransform d req =
      Except.ok (Data.mk
        (d.array.map (fun row =>
          (s1.colNames.zip (row.take s1.colNames.length)).map
            (fun p => s1.inv p.1 p.2) ++
          (s2.colNames.zip (row.drop s1.colNames.length)).map
            (fun p => s2.inv p.1 p.2)))
        (CompoundDataScaler.mk [s1, s2]).names) := by
  have hfil1 : s1.colNames.filter (fun n => n ∈ req) = s1.colNames :=
    List.filter_eq_self.2 (fun n hn => by
      simpa using hreq n (List.mem_append_left _ hn))
  have hfil2 : s2.colNames.filter (fun n => n ∈ req) = s2.colNames :=
    List.filter_eq_self.2 (fun n hn => by
      simpa using hreq n (List.mem_append_right _ hn))
  have hG1 := dataGet_left_block s1.colNames s2.colNames d hnd hdn hrect
  have hG2 := dataGet_right_block s1.colNames s2.colNames d hnd hdn hrect
  have hm : ([s1, s2] : List AScaler).mapM (fun s =>
      (dataGet d (s.colNames.filter (fun n => n ∈ req))).map
        (fun sub => (s.invTransformD sub).array)) =
      Except.ok
        [(s1.invTransformD (Data.mk (d.array.map (fun row => row.take s1.colNames.length))
            s1.colNames)).array,
         (s2.invTransformD (Data.mk (d.array.map (fun row => row.drop s1.colNames.length))
            s2.colNames)).array] := by
    simp only [List.mapM_cons, List.mapM_nil]
    rw [hfil1, hfil2, hG1, hG2]
    rfl
  show (match ([s1, s2] : List AScaler).mapM (fun s =>
      (dataGet d (s.colNames.filter (fun n => n ∈ req))).map
        (fun sub => (s.invTransformD sub).array)) with
    | Except.error e => Except.error e
    | Except.ok xds =>
        Except.ok (Data.mk (hstack xds) (CompoundDataScaler.mk [s1, s2]).names)) = _
  rw [hm]
  show Except.ok (Data.mk (hstack
      [(d.array.map (fun row => row.take s1.colNames.length)).map
          (fun row => (s1.colNames.zip row).map (fun p => s1.inv p.1 p.2)),
       (d.array.map (fun row => row.drop s1.colNames.length)).map
          (fun row => (s2.colNames.zip row).map (fun p => s2.inv p.1 p.2))])
      (CompoundDataScaler.mk [s1, s2]).names) = _
  refine congrArg Except.ok (congrArg (fun a => Data.mk a _) ?_)
  show List.zipWith (· ++ ·)
      ((d.array.map (fun row => row.take s1.colNames.length)).map
        (fun row => (s1.colNames.zip row).map (fun p => s1.inv p.1 p.2)))
      ((d.array.map (fun row => row.drop s1.colNames.length)).map
        (fun row => (s2.colNames.zip row).map (fun p => s2.inv p.1 p.2))) = _
  rw [List.map_map, List.map_map, zipWith_map_map]
  rfl

/-- C3 (amended): for all sub-scalers `S1` and `S2` with disjoint column
names, each of which satisfies its own transform/inverse_transform
round-trip identity on its columns (for the affine embedding: every column
coefficient is nonzero), the compound round trip recovers `X` — for every
`X` whose column names are exactly `S1.names ++ S2.names`, the full
compound name tuple in compound order (not an arbitrary subset of the
union: `transform` labels its output `Data` with the full compound name
tuple, so a strict subset mislabels the output and the inverse pass
fails). -/
theorem compound_roundtrip_on_full_names (s1 s2 : AScaler) (X : Data)
    (hnd : (s1.colNames ++ s2.colNames).Nodup)
    (hinv : ∀ col ∈ s1.cols ++ s2.cols, col.2.1 ≠ 0)
    (hX : X.names = s1.colNames ++ s2.colNames)
    (hrect : ∀ row ∈ X.array, row.length = X.names.length) :
    ((CompoundDataScaler.mk [s1, s2]).transform X X.names).bind
      (fun y => (CompoundDataScaler.mk [s1, s2]).inverseTransform y X.names) =
      Except.ok X := by
  obtain ⟨arr, nms⟩ := X
  have hcn : (CompoundDataScaler.mk [s1, s2]).names = s1.colNames ++ s2.colNames := by
    simp [CompoundDataScaler.names]
  have hreq : ∀ n ∈ s1.colNames ++ s2.colNames, n ∈ nms := by
    intro n hn
    rw [show nms = s1.colNames ++ s2.colNames from hX]
    exact hn
  rw [show ((CompoundDataScaler.mk [s1, s2]).transform (Data.mk arr nms) nms) =
      Except.ok (Data.mk
        (arr.map (fun row =>
          (s1.colNames.zip (row.take s1.colNames.length)).map
            (fun p => s1.app p.1 p.2) ++
          (s2.colNames.zip (row.drop s1.colNames.length)).map
            (fun p => s2.app p.1 p.2)))
        (CompoundDataScaler.mk [s1, s2]).names) from
    transform_full s1 s2 (Data.mk arr nms) nms hnd hX hreq hrect]
  show (CompoundDataScaler.mk [s1, s2]).inverseTransform
      (Data.mk
        (arr.map (fun row =>
          (s1.colNames.zip (row.take s1.colNames.length)).map
            (fun p => s1.app p.1 p.2) ++
          (s2.colNames.zip (row.drop s1.colNames.length)).map
            (fun p => s2.app p.1 p.2)))
        (CompoundDataScaler.mk [s1, s2]).names) nms = Except.ok (Data.mk arr nms)
  have hrowlen : ∀ row ∈ arr, row.length = s1.colNames.length + s2.colNames.length := by
    intro row hrow
    rw [hrect row hrow, show nms = s1.colNames ++ s2.colNames from hX,
      List.length_append]
  have hrect2 : ∀ yrow ∈ (arr.map (fun row =>
      (s1.colNames.zip (row.take s1.colNames.length)).map
        (fun p => s1.app p.1 p.2) ++
      (s2.colNames.zip (row.drop s1.colNames.length)).map
        (fun p => s2.app p.1 p.2))), yrow.length =
        ((CompoundDataScaler.mk [s1, s2]).names).length := by
    intro yrow hy
    obtain ⟨row, hrow, rfl⟩ := List.mem_map.1 hy
    have hr := hrowlen row hrow
    rw [hcn]
    simp only [List.length_append, List.length_map, List.length_zip,
      List.length_take, List.length_drop]
    omega
  rw [inverse_full s1 s2 _ nms hnd hcn hreq hrect2]
  refine congrArg Except.ok ?_
  have harr : (arr.map (fun row =>
      (s1.colNames.zip (row.take s1.colNames.length)).map
        (fun p => s1.app p.1 p.2) ++
      (s2.colNames.zip (row.drop s1.colNames.length)).map
        (fun p => s2.app p.1 p.2))).map (fun yrow =>
      (s1.colNames.zip (yrow.take s1.colNames.length)).map
        (fun p => s1.inv p.1 p.2) ++
      (s2.colNames.zip (yrow.drop s1.colNames.length)).map
        (fun p => s2.inv p.1 p.2)) = arr := by
    rw [List.map_map]
    refine (List.map_congr_left (fun row hrow => ?_)).trans (List.map_id arr)
    have hr := hrowlen row hrow
    have hB1len : ((s1.colNames.zip (row.take s1.colNames.length)).map
        (fun p => s1.app p.1 p.2)).length = s1.colNames.length := by
      simp only [List.length_map, List.length_zip, List.length_take]
      omega
    show ((s1.colNames.zip ((((s1.colNames.zip (row.take s1.colNames.length)).map
          (fun p => s1.app p.1 p.2)) ++
          ((s2.colNames.zip (row.drop s1.colNames.length)).map
            (fun p => s2.app p.1 p.2))).take s1.colNames.length)).map
        (fun p => s1.inv p.1 p.2)) ++
      ((s2.colNames.zip ((((s1.colNames.zip (row.take s1.colNames.length)).map
          (fun p => s1.app p.1 p.2)) ++
          ((s2.colNames.zip (row.drop s1.colNames.length)).map
            (fun p => s2.app p.1 p.2))).drop s1.colNames.length)).map
        (fun p => s2.inv p.1 p.2)) = row
    rw [List.take_left' hB1len, List.drop_left' hB1len]
    rw [zip_inv_app s1 (fun col h => hinv col (List.mem_append_left _ h))
      s1.colNames (row.take s1.colNames.length)
      (by rw [List.length_take]; omega)]
    rw [zip_inv_app s2 (fun col h => hinv col (List.mem_append_right _ h))
      s2.colNames (row.drop s1.colNames.length)
      (by rw [List.length_drop]; omega)]
    exact List.take_append_drop _ row
  rw [harr, hcn, show nms = s1.colNames ++ s2.colNames from hX]

/-- Witness for C3's amended round-trip law at a concrete two-scaler
compound and a two-column data instance. -/
theorem compound_roundtrip_witness :
    (((AScaler.mk [("a", (2 : ℚ), (1 : ℚ))]).colNames ++
        (AScaler.mk [("b", (3 : ℚ), (0 : ℚ))]).colNames).Nodup ∧
      (∀ col ∈ (AScaler.mk [("a", (2 : ℚ), (1 : ℚ))]).cols ++
          (AScaler.mk [("b", (3 : ℚ), (0 : ℚ))]).cols, col.2.1 ≠ 0) ∧
      (Data.mk [[(5 : ℚ), 6]] ["a", "b"]).names =
        (AScaler.mk [("a", (2 : ℚ), (1 : ℚ))]).colNames ++
          (AScaler.mk [("b", (3 : ℚ), (0 : ℚ))]).colNames ∧
      (∀ row ∈ (Data.mk [[(5 : ℚ), 6]] ["a", "b"]).array,
        row.length = (Data.mk [[(5 : ℚ), 6]] ["a", "b"]).names.length)) ∧
    ((CompoundDataScaler.mk
        [AScaler.mk [("a", (2 : ℚ), (1 : ℚ))], AScaler.mk [("b", (3 : ℚ), (0 : ℚ))]]).transform
        (Data.mk [[(5 : ℚ), 6]] ["a", "b"])
        (Data.mk [[(5 : ℚ), 6]] ["a", "b"]).names).bind
      (fun y => (CompoundDataScaler.mk
        [AScaler.mk [("a", (2 : ℚ), (1 : ℚ))], AScaler.mk [("b", (3 : ℚ), (0 : ℚ))]]).inverseTransform
        y (Data.mk [[(5 : ℚ), 6]] ["a", "b"]).names) =
      Except.ok (Data.mk [[(5 : ℚ), 6]] ["a", "b"]) :=
  ⟨⟨by decide, by decide, by decide, by decide⟩,
    compound_roundtrip_on_full_names _ _ _
      (by decide) (by decide) (by decide) (by decide)⟩

/-- Looking up the key just assigned returns the assigned value. -/
theorem alookup_dictInsert_self {V : Type} (m : List (String × V)) (k : String) (v : V) :
    alookup (dictInsert m k v) k = some v := by
  induction m with
  | nil => simp [dictInsert, alookup]
  | cons p rest ih =>
      by_cases h : p.1 = k
      · simp [dictInsert, h, alookup]
      · simp [dictInsert, h, alookup, ih]

/-- Assignment under one key leaves lookups under another unchanged. -/
theorem alookup_dictInsert_ne {V : Type} (m : List (String × V)) (k s : String)
    (hne : s ≠ k) : ∀ v : V, alookup (dictInsert m k v) s = alookup m s := by
  induction m with
  | nil => intro v; simp [dictInsert, alookup, hne.symm]
  | cons p rest ih =>
      intro v
      by_cases h : p.1 = k
      · simp [dictInsert, h, alookup, hne.symm, hne]
      · by_cases h2 : p.1 = s
        · simp [dictInsert, h, alookup, h2, hne]
        · simp [dictInsert, h, alookup, h2, ih]

/-- `set_param` then `getFlat` at the same flattened key. -/
theorem getFlat_setParam_self (p : HParams) (k : FlatName) (v : Mat) :
    getFlat (setParam p k v) k = some v := by
  cases k with
  | one s => simp [setParam, getFlat, alookup_dictInsert_self]
  | two g t =>
      cases h : alookup p g with
      | none => simp [setParam, h, getFlat, alookup_dictInsert_self, alookup]
      | some pv =>
          cases pv with
          | arr a => simp [setParam, h, getFlat, alookup_dictInsert_self, alookup]
          | sub m => simp [setParam, h, getFlat, alookup_dictInsert_self]

/-- `set_param` under a different, compatible flattened key leaves a
`getFlat` unchanged (compatible: an equal top-level key only between two
grouped names). -/
theorem getFlat_setParam_ne (p : HParams) (k kw : FlatName) (v : Mat)
    (hne : k ≠ kw)
    (hcompat : topKey kw = topKey k → isGrouped k = true ∧ isGrouped kw = true) :
    getFlat (setParam p kw v) k = getFlat p k := by
  cases k with
  | one s =>
      cases kw with
      | one sw =>
          have hs : s ≠ sw := fun h => hne (by rw [h])
          simp [setParam, getFlat, alookup_dictInsert_ne _ _ _ hs _]
      | two gw tw =>
          have hs : s ≠ gw := fun h => by
            obtain ⟨hg, _⟩ := hcompat (by simpa [topKey] using h.symm)
            exact absurd hg (by simp [isGrouped])
          cases hl : alookup p gw with
          | none => simp [setParam, hl, getFlat, alookup_dictInsert_ne _ _ _ hs _]
          | some pv =>
              cases pv with
              | arr a => simp [setParam, hl, getFlat, alookup_dictInsert_ne _ _ _ hs _]
              | sub m => simp [setParam, hl, getFlat, alookup_dictInsert_ne _ _ _ hs _]
  | two g t =>
      cases kw with
      | one sw =>
          have hs : g ≠ sw := fun h => by
            obtain ⟨_, hg⟩ := hcompat (by simpa [topKey] using h.symm)
            exact absurd hg (by simp [isGrouped])
          simp [setParam, getFlat, alookup_dictInsert_ne _ _ _ hs _]
      | two gw tw =>
          by_cases hg : g = gw
          · have ht : t ≠ tw := fun h => hne (by rw [hg, h])
            subst hg
            cases hl : alookup p g with
            | none =>
                simp [setParam, hl, getFlat, alookup_dictInsert_self,
                  alookup, ht, Ne.symm ht]
            | some pv =>
                cases pv with
                | arr a =>
                    simp [setParam, hl, getFlat, alookup_dictInsert_self,
                      alookup, ht, Ne.symm ht]
                | sub m =>
                    simp [setParam, hl, getFlat, alookup_dictInsert_self,
                      alookup_dictInsert_ne _ _ _ ht _]
          · cases hl : alookup p gw with
            | none => simp [setParam, hl, getFlat, alookup_dictInsert_ne _ _ _ hg _]
            | some pv =>
                cases pv with
                | arr a => simp [setParam, hl, getFlat, alookup_dictInsert_ne _ _ _ hg _]
                | sub m => simp [setParam, hl, getFlat, alookup_dictInsert_ne _ _ _ hg _]

/-- `set_param` never touches top-level keys other than its own. -/
theorem alookup_setParam_ne_top (p : HParams) (kw : FlatName) (v : Mat)
    (s : String) (h : topKey kw ≠ s) :
    alookup (setParam p kw v) s = alookup p s := by
  cases kw with
  | one sw =>
      exact alookup_dictInsert_ne p sw s (fun he => h (by simpa [topKey] using he.symm)) _
  | two gw tw =>
      have hg : gw ≠ s := h
      cases hl : alookup p gw with
      | none => simp [setParam, hl, alookup_dictInsert_ne p gw s (Ne.symm hg)]
      | some pv =>
          cases pv with
          | arr a => simp [setParam, hl, alookup_dictInsert_ne p gw s (Ne.symm hg)]
          | sub m => simp [setParam, hl, alookup_dictInsert_ne p gw s (Ne.symm hg)]

/-- The assignment loop leaves compatible, unassigned flattened keys
unchanged. -/
theorem unpackLoop_getFlat_preserved (m : Mat) :
    ∀ (ks : List FlatName) (i : ℕ) (p : HParams) (k : FlatName),
      (∀ kw ∈ ks, k ≠ kw ∧
        (topKey kw = topKey k → isGrouped k = true ∧ isGrouped kw = true)) →
      getFlat (unpackLoop m ks i p) k = getFlat p k := by
  intro ks
  induction ks with
  | nil => intro i p k _; rfl
  | cons kw ks ih =>
      intro i p k h
      show getFlat (unpackLoop m ks (i + 1) (setParam p kw (colSlice m i))) k = _
      rw [ih (i + 1) _ k (fun k2 h2 => h k2 (List.mem_cons_of_mem _ h2))]
      exact getFlat_setParam_ne p k kw _ (h kw (List.mem_cons_self _ _)).1
        (h kw (List.mem_cons_self _ _)).2

/-- The assignment loop leaves untouched top-level keys unchanged. -/
theorem unpackLoop_top_preserved (m : Mat) :
    ∀ (ks : List FlatName) (i : ℕ) (p : HParams) (s : String),
      (∀ kw ∈ ks, topKey kw ≠ s) →
      alookup (unpackLoop m ks i p) s = alookup p s := by
  intro ks
  induction ks with
  | nil => intro i p s _; rfl
  | cons kw ks ih =>
      intro i p s h
      show alookup (unpackLoop m ks (i + 1) (setParam p kw (colSlice m i))) s = _
      rw [ih (i + 1) _ s (fun k2 h2 => h k2 (List.mem_cons_of_mem _ h2))]
      exact alookup_setParam_ne_top p kw _ s (h kw (List.mem_cons_self _ _))

/-- Every name the assignment loop visits receives its enumerated column
slice. -/
theorem unpackLoop_assigned (m : Mat) :
    ∀ (ks : List FlatName) (i : ℕ) (p : HParams),
      ks.Nodup →
      (∀ k1 ∈ ks, ∀ k2 ∈ ks, k1 ≠ k2 → topKey k1 = topKey k2 →
        isGrouped k1 = true ∧ isGrouped k2 = true) →
      ∀ j : ℕ, ∀ hj : j < ks.length,
        getFlat (unpackLoop m ks i p) (ks.get ⟨j, hj⟩) = some (colSlice m (i + j)) := by
  intro ks
  induction ks with
  | nil => intro i p _ _ j hj; exact absurd hj (by simp)
  | cons k ks ih =>
      intro i p hnd hcomp j hj
      obtain ⟨hk0, hnd2⟩ := List.nodup_cons.1 hnd
      cases j with
      | zero =>
          show getFlat (unpackLoop m ks (i + 1) (setParam p k (colSlice m i))) k =
            some (colSlice m (i + 0))
          rw [unpackLoop_getFlat_preserved m ks (i + 1) _ k (fun kw hw => by
            have hne : k ≠ kw := fun he => hk0 (he ▸ hw)
            exact ⟨hne,
              fun htop => by
                obtain ⟨h1, h2⟩ := hcomp kw (List.mem_cons_of_mem _ hw) k
                  (List.mem_cons_self _ _) (fun he => hne he.symm) htop
                exact ⟨h2, h1⟩⟩)]
          rw [getFlat_setParam_self, Nat.add_zero]
      | succ j2 =>
          show getFlat (unpackLoop m ks (i + 1) (setParam p k (colSlice m i)))
              (ks.get ⟨j2, Nat.lt_of_succ_lt_succ hj⟩) = some (colSlice m (i + (j2 + 1)))
          rw [ih (i + 1) _ hnd2
            (fun k1 h1 k2 h2 => hcomp k1 (List.mem_cons_of_mem _ h1) k2
              (List.mem_cons_of_mem _ h2)) j2 (Nat.lt_of_succ_lt_succ hj)]
          rw [show i + 1 + j2 = i + (j2 + 1) by omega]

/-- C7: for every background model and every parameter array `p_arr`,
`unpack_params_from_arr(p_arr)` returns a frozen `Params` whose `"weight"`
entry is a synthesized zero-length array never taken from `p_arr` (the
result at `"weight"` is the constant empty array for every `p_arr`), and
whose remaining entries are the consecutive columns of `p_arr` assigned in
order to the model's flattened parameter names other than `("weight",)`.
The flattened names satisfy the declared-name data model: pairwise
distinct, an equal top-level key only between grouped names, and no
grouped name under the top-level key `"weight"`. -/
theorem background_unpack_characterization (M : BackgroundModel) (p_arr : Mat)
    (hnd : M.flats.Nodup)
    (hcomp : ∀ k1 ∈ M.flats, ∀ k2 ∈ M.flats, k1 ≠ k2 → topKey k1 = topKey k2 →
      isGrouped k1 = true ∧ isGrouped k2 = true)
    (hw : ∀ k ∈ M.flats, topKey k = "weight" → k = FlatName.one "weight") :
    alookup (unpackParamsFromArr M p_arr) "weight" = some (PValue.arr []) ∧
    ∀ j : ℕ,
      ∀ hj : j < (M.flats.filter (fun n => n ≠ FlatName.one "weight")).length,
      getFlat (unpackParamsFromArr M p_arr)
          ((M.flats.filter (fun n => n ≠ FlatName.one "weight")).get ⟨j, hj⟩) =
        some (colSlice p_arr j) := by
  have hmemf : ∀ k ∈ M.flats.filter (fun n => n ≠ FlatName.one "weight"),
      k ∈ M.flats ∧ k ≠ FlatName.one "weight" := by
    intro k hk
    have := List.mem_filter.1 hk
    exact ⟨this.1, by simpa using this.2⟩
  constructor
  · unfold unpackParamsFromArr
    rw [unpackLoop_top_preserved p_arr _ 0 _ "weight" (fun kw hkw => by
      obtain ⟨hin, hne⟩ := hmemf kw hkw
      intro htop
      exact hne (hw kw hin htop))]
    exact alookup_dictInsert_self [] "weight" (PValue.arr [])
  · intro j hj
    unfold unpackParamsFromArr
    rw [unpackLoop_assigned p_arr _ 0 _
      (List.Nodup.filter _ hnd)
      (fun k1 h1 k2 h2 => hcomp k1 (hmemf k1 h1).1 k2 (hmemf k2 h2).1)
      j hj]
    rw [Nat.zero_add]

/-- Witness for C7 at a concrete background model with one flat and one
grouped parameter beside the weight. -/
theorem background_unpack_witness :
    ((([FlatName.one "weight", FlatName.one "a",
        FlatName.two "phi2" "mu"] : List FlatName).Nodup ∧
      (∀ k1 ∈ ([FlatName.one "weight", FlatName.one "a",
          FlatName.two "phi2" "mu"] : List FlatName),
        ∀ k2 ∈ ([FlatName.one "weight", FlatName.one "a",
            FlatName.two "phi2" "mu"] : List FlatName),
        k1 ≠ k2 → topKey k1 = topKey k2 →
          isGrouped k1 = true ∧ isGrouped k2 = true) ∧
      (∀ k ∈ ([FlatName.one "weight", FlatName.one "a",
          FlatName.two "phi2" "mu"] : List FlatName),
        topKey k = "weight" → k = FlatName.one "weight")) ∧
    alookup (unpackParamsFromArr
        (BackgroundModel.mk [FlatName.one "weight", FlatName.one "a",
          FlatName.two "phi2" "mu"])
        [[(1 : ℚ), 2], [3, 4]]) "weight" = some (PValue.arr [])) ∧
    getFlat (unpackParamsFromArr
        (BackgroundModel.mk [FlatName.one "weight", FlatName.one "a",
          FlatName.two "phi2" "mu"])
        [[(1 : ℚ), 2], [3, 4]]) (FlatName.one "a") =
      some (colSlice [[(1 : ℚ), 2], [3, 4]] 0) := by
  have hmain := background_unpack_characterization
    (BackgroundModel.mk [FlatName.one "weight", FlatName.one "a",
      FlatName.two "phi2" "mu"])
    [[(1 : ℚ), 2], [3, 4]] (by decide) (by decide) (by decide)
  refine ⟨⟨⟨by decide, by decide, by decide⟩, hmain.1⟩, ?_⟩
  have h0 := hmain.2 0 (by decide)
  simpa using h0

/-- Reading a different position than the one just set. -/
theorem getD_set_ne {α : Type} (d : α) (l : List α) (i j : ℕ) (a : α)
    (h : i ≠ j) : (l.set i a).getD j d = l.getD j d := by
  rw [List.getD_eq_getElem?_getD, List.getD_eq_getElem?_getD, List.getElem?_set_ne h]

/-- Reading the position just set: the new value in range, the default out
of range. -/
theorem getD_set_self {α : Type} (d : α) (l : List α) (i : ℕ) (a : α) :
    (l.set i a).getD i d = if i < l.length then a else d := by
  by_cases h : i < l.length
  · rw [if_pos h, List.getD_eq_getElem?_getD, List.getElem?_set_self h]
    rfl
  · rw [if_neg h, List.getD_eq_getElem?_getD]
    have hnone : (l.set i a)[i]? = Option.none := by
      rw [List.getElem?_eq_none]
      rw [List.length_set]
      omega
    rw [hnone]
    rfl

/-- Zipping a list with its own map pairs each element with its image. -/
theorem zip_self_map {α β : Type} (f : α → β) :
    ∀ l : List α, l.zip (l.map f) = l.map (fun a => (a, f a))
  | [] => rfl
  | a :: l => by
      rw [List.map_cons, List.zip_cons_cons, zip_self_map f l, List.map_cons]

/-- The gather/scatter loop of a masked single-column assignment: length
is preserved, unlisted rows are untouched, and each listed row gets its
paired value written at the column. -/
theorem scatter_foldl (im1 : ℕ) :
    ∀ (pairs : List (ℕ × ℚ)) (acc : Mat), (pairs.map (fun p => p.1)).Nodup →
      (pairs.foldl (fun a p => setEntry a p.1 im1 p.2) acc).length = acc.length ∧
      (∀ i : ℕ, i ∉ pairs.map (fun p => p.1) →
        (pairs.foldl (fun a p => setEntry a p.1 im1 p.2) acc).getD i [] =
          acc.getD i []) ∧
      (∀ p ∈ pairs,
        (pairs.foldl (fun a p => setEntry a p.1 im1 p.2) acc).getD p.1 [] =
          (acc.getD p.1 []).set im1 p.2) := by
  intro pairs
  induction pairs with
  | nil =>
      intro acc _
      exact ⟨rfl, fun _ _ => rfl, fun p hp => absurd hp (List.not_mem_nil p)⟩
  | cons q pairs ih =>
      intro acc hnd
      obtain ⟨i0, v0⟩ := q
      rw [List.map_cons] at hnd
      obtain ⟨h0, hnd2⟩ := List.nodup_cons.1 hnd
      obtain ⟨ihl, ihout, ihin⟩ := ih (setEntry acc i0 im1 v0) hnd2
      rw [List.foldl_cons]
      refine ⟨?_, ?_, ?_⟩
      · show (pairs.foldl (fun a p => setEntry a p.1 im1 p.2)
            (setEntry acc i0 im1 v0)).length = acc.length
        rw [ihl]
        unfold setEntry
        rw [List.length_set]
      · intro i hi
        rw [List.map_cons] at hi
        have hi2 : i ∉ pairs.map (fun p => p.1) :=
          fun h => hi (List.mem_cons_of_mem _ h)
        have hii0 : i ≠ i0 :=
          fun h => hi (by rw [h]; exact List.mem_cons_self _ _)
        show (pairs.foldl (fun a p => setEntry a p.1 im1 p.2)
            (setEntry acc i0 im1 v0)).getD i [] = acc.getD i []
        rw [ihout i hi2]
        unfold setEntry
        exact getD_set_ne [] acc i0 i _ (fun h => hii0 h.symm)
      · intro p hp
        rcases List.mem_cons.1 hp with rfl | hp2
        · show (pairs.foldl (fun a p => setEntry a p.1 im1 p.2)
              (setEntry acc i0 im1 v0)).getD i0 [] = (acc.getD i0 []).set im1 v0
          rw [ihout i0 h0]
          unfold setEntry
          rw [getD_set_self]
          by_cases hlt : i0 < acc.length
          · rw [if_pos hlt]
          · rw [if_neg hlt]
            have hd : acc.getD i0 [] = [] := by
              rw [List.getD_eq_getElem?_getD, List.getElem?_eq_none (by omega)]
              rfl
            rw [hd]
            rfl
        · show (pairs.foldl (fun a p2 => setEntry a p2.1 im1 p2.2)
              (setEntry acc i0 im1 v0)).getD p.1 [] = (acc.getD p.1 []).set im1 p.2
          rw [ihin p hp2]
          unfold setEntry
          rw [getD_set_ne [] acc i0 p.1 _ (fun h => h0 (by
            rw [h]; exact List.mem_map_of_mem (fun p => p.1) hp2))]

/-- C9 (amended): `BoundedHardThreshold.__call__` leaves the input `nn`
unmodified (it operates on a clone) and returns an array that differs from
`nn` at most in the column of the `'weight'` parameter, and only in those
rows whose `coord_name` value lies within `[lower, upper]`; in those
positions, values at or below the threshold — torch's
`threshold(x, t, 0)` keeps only values strictly above `t` — are replaced
by `0`, and every other entry of the output equals the corresponding entry
of `nn`. -/
theorem bht_call_characterization (prior : BoundedHardThreshold) (nn : Mat)
    (d : Data) (flat : List String)
    (hw : "weight" ∈ flat)
    (hlen : (dataCol d prior.coordName).length = nn.length) :
    (bhtCall prior nn d flat).length = nn.length ∧
    (∀ i j : ℕ, j ≠ flat.indexOf "weight" →
      ((bhtCall prior nn d flat).getD i []).getD j 0 = ((nn.getD i []).getD j 0)) ∧
    (∀ i : ℕ, withinBounds ((dataCol d prior.coordName).getD i 0)
        prior.lower prior.upper = false →
      (bhtCall prior nn d flat).getD i [] = nn.getD i []) ∧
    (∀ i : ℕ, i < nn.length →
      withinBounds ((dataCol d prior.coordName).getD i 0)
        prior.lower prior.upper = true →
      ((bhtCall prior nn d flat).getD i []).getD (flat.indexOf "weight") 0 =
        if prior.threshold < (nn.getD i []).getD (flat.indexOf "weight") 0
        then (nn.getD i []).getD (flat.indexOf "weight") 0 else 0) := by
  have hzip :
      ((List.range nn.length).filter
        (fun i => withinBounds ((dataCol d prior.coordName).getD i 0)
          prior.lower prior.upper)).zip
      (((List.range nn.length).filter
        (fun i => withinBounds ((dataCol d prior.coordName).getD i 0)
          prior.lower prior.upper)).map (fun i =>
        if prior.threshold < (nn.getD i []).getD (flat.indexOf "weight") 0
        then (nn.getD i []).getD (flat.indexOf "weight") 0 else 0)) =
      ((List.range nn.length).filter
        (fun i => withinBounds ((dataCol d prior.coordName).getD i 0)
          prior.lower prior.upper)).map (fun i => (i,
        if prior.threshold < (nn.getD i []).getD (flat.indexOf "weight") 0
        then (nn.getD i []).getD (flat.indexOf "weight") 0 else 0)) :=
    zip_self_map _ _
  have hcall : bhtCall prior nn d flat =
      (((List.range nn.length).filter
        (fun i => withinBounds ((dataCol d prior.coordName).getD i 0)
          prior.lower prior.upper)).map (fun i => (i,
        if prior.threshold < (nn.getD i []).getD (flat.indexOf "weight") 0
        then (nn.getD i []).getD (flat.indexOf "weight") 0 else 0))).foldl
        (fun a p => setEntry a p.1 (flat.indexOf "weight") p.2) nn := by
    simp only [bhtCall]
    rw [hzip]
  have hndpairs :
      ((((List.range nn.length).filter
        (fun i => withinBounds ((dataCol d prior.coordName).getD i 0)
          prior.lower prior.upper)).map (fun i => (i,
        if prior.threshold < (nn.getD i []).getD (flat.indexOf "weight") 0
        then (nn.getD i []).getD (flat.indexOf "weight") 0 else 0))).map
          (fun p => p.1)).Nodup := by
    rw [List.map_map]
    exact (List.map_congr_left (fun i _ => rfl)).trans (List.map_id _) ▸
      (List.Nodup.filter _ (List.nodup_range _))
  obtain ⟨hl, hout, hin⟩ := scatter_foldl (flat.indexOf "weight")
    (((List.range nn.length).filter
      (fun i => withinBounds ((dataCol d prior.coordName).getD i 0)
        prior.lower prior.upper)).map (fun i => (i,
      if prior.threshold < (nn.getD i []).getD (flat.indexOf "weight") 0
      then (nn.getD i []).getD (flat.indexOf "weight") 0 else 0))) nn hndpairs
  have hfst :
      (((List.range nn.length).filter
        (fun i => withinBounds ((dataCol d prior.coordName).getD i 0)
          prior.lower prior.upper)).map (fun i => (i,
        if prior.threshold < (nn.getD i []).getD (flat.indexOf "weight") 0
        then (nn.getD i []).getD (flat.indexOf "weight") 0 else 0))).map
          (fun p => p.1) =
      (List.range nn.length).filter
        (fun i => withinBounds ((dataCol d prior.coordName).getD i 0)
          prior.lower prior.upper) := by
    rw [List.map_map]
    exact (List.map_congr_left (fun i _ => rfl)).trans (List.map_id _)
  refine ⟨?_, ?_, ?_, ?_⟩
  · rw [hcall, hl]
  · intro i j hj
    by_cases hmem : i ∈ (List.range nn.length).filter
        (fun i => withinBounds ((dataCol d prior.coordName).getD i 0)
          prior.lower prior.upper)
    · have hpmem : (i,
          if prior.threshold < (nn.getD i []).getD (flat.indexOf "weight") 0
          then (nn.getD i []).getD (flat.indexOf "weight") 0 else 0) ∈
          ((List.range nn.length).filter
            (fun i => withinBounds ((dataCol d prior.coordName).getD i 0)
              prior.lower prior.upper)).map (fun i => (i,
            if prior.threshold < (nn.getD i []).getD (flat.indexOf "weight") 0
            then (nn.getD i []).getD (flat.indexOf "weight") 0 else 0)) :=
        List.mem_map_of_mem _ hmem
      rw [hcall, hin _ hpmem]
      exact getD_set_ne 0 _ _ _ _ (fun h => hj h.symm)
    · rw [hcall, hout i (by rw [hfst]; exact hmem)]
  · intro i hfalse
    have hmem : i ∉ (List.range nn.length).filter
        (fun i => withinBounds ((dataCol d prior.coordName).getD i 0)
          prior.lower prior.upper) := by
      intro hin2
      have hmf := (List.mem_filter.1 hin2).2
      rw [hfalse] at hmf
      exact absurd hmf (by simp)
    rw [hcall, hout i (by rw [hfst]; exact hmem)]
  · intro i hi htrue
    have hmem : i ∈ (List.range nn.length).filter
        (fun i => withinBounds ((dataCol d prior.coordName).getD i 0)
          prior.lower prior.upper) :=
      List.mem_filter.2 ⟨List.mem_range.2 hi, by rw [htrue]⟩
    have hpmem : (i,
        if prior.threshold < (nn.getD i []).getD (flat.indexOf "weight") 0
        then (nn.getD i []).getD (flat.indexOf "weight") 0 else 0) ∈
        ((List.range nn.length).filter
          (fun i => withinBounds ((dataCol d prior.coordName).getD i 0)
            prior.lower prior.upper)).map (fun i => (i,
          if prior.threshold < (nn.getD i []).getD (flat.indexOf "weight") 0
          then (nn.getD i []).getD (flat.indexOf "weight") 0 else 0)) :=
      List.mem_map_of_mem _ hmem
    rw [hcall, hin _ hpmem, getD_set_self]
    by_cases hcol : flat.indexOf "weight" < (nn.getD i []).length
    · rw [if_pos hcol]
    · rw [if_neg hcol]
      have hd : (nn.getD i []).getD (flat.indexOf "weight") 0 = 0 := by
        rw [List.getD_eq_getElem?_getD, List.getElem?_eq_none (by omega)]
        rfl
      rw [hd]
      by_cases ht : prior.threshold < 0
      · rw [if_pos ht]
      · rw [if_neg ht]

/-- Witness for C9's amended characterization at a concrete prior and
input. -/
theorem bht_call_witness :
    ("weight" ∈ ["weight", "mu"] ∧
      (dataCol (Data.mk [[(0 : ℚ)], [3]] ["phi1"]) "phi1").length =
        ([[(1 : ℚ), 5], [2, 6]] : Mat).length) ∧
    ((bhtCall (BoundedHardThreshold.mk (1/2) "phi1" (PyFloat.fin 0) (PyFloat.fin 1))
        [[(1 : ℚ), 5], [2, 6]] (Data.mk [[(0 : ℚ)], [3]] ["phi1"])
        ["weight", "mu"]).length = ([[(1 : ℚ), 5], [2, 6]] : Mat).length) ∧
    (((bhtCall (BoundedHardThreshold.mk (1/2) "phi1" (PyFloat.fin 0) (PyFloat.fin 1))
        [[(1 : ℚ), 5], [2, 6]] (Data.mk [[(0 : ℚ)], [3]] ["phi1"])
        ["weight", "mu"]).getD 0 []).getD
          (["weight", "mu"].indexOf "weight") 0 =
      if (1 : ℚ)/2 < ((([[(1 : ℚ), 5], [2, 6]] : Mat).getD 0 []).getD
          (["weight", "mu"].indexOf "weight") 0)
      then ((([[(1 : ℚ), 5], [2, 6]] : Mat).getD 0 []).getD
          (["weight", "mu"].indexOf "weight") 0) else 0) := by
  have hmain := bht_call_characterization
    (BoundedHardThreshold.mk (1/2) "phi1" (PyFloat.fin 0) (PyFloat.fin 1))
    [[(1 : ℚ), 5], [2, 6]] (Data.mk [[(0 : ℚ)], [3]] ["phi1"]) ["weight", "mu"]
    (by decide) (by decide)
  exact ⟨⟨by decide, by decide⟩, hmain.1, hmain.2.2.2 0 (by decide) (by decide)⟩

/-- C9 counterexample: torch's `threshold(x, t, 0)` also zeroes an entry
exactly equal to the threshold, so the claim's "values below threshold are
replaced by 0, and every other entry of the output equals the
corresponding entry of nn" fails at a weight entry equal to the
threshold: with threshold 2 and an in-bounds row whose weight entry is 2
(not below the threshold), the output entry is 0, not 2. -/
theorem bht_call_zeroes_at_threshold :
    ¬ ((2 : ℚ) < 2) ∧
    withinBounds ((dataCol (Data.mk [[(0 : ℚ)]] ["phi1"]) "phi1").getD 0 0)
      PyFloat.ninf PyFloat.pinf = true ∧
    bhtCall (BoundedHardThreshold.mk 2 "phi1" PyFloat.ninf PyFloat.pinf)
      [[(2 : ℚ)]] (Data.mk [[(0 : ℚ)]] ["phi1"]) ["weight"] = [[(0 : ℚ)]] ∧
    ((0 : ℚ) = 2) = False :=
  ⟨by decide, by decide, by decide, by decide⟩

end StreamML
